import Mathlib

set_option maxHeartbeats 1000000

/-!
Verification development for the TicTacToe backend core
(`src/app/game_logic.py`): a shallow embedding of the board state
machine (`TicTacToeGame`) and of the minimax AI (`MinimaxAI`),
together with proofs of the specified properties.

Modelling conventions:
* the Python board string is embedded as a `List Cell`, one `Cell`
  per character (`' '`, `'X'`, `'O'`); indexing `board[i]` becomes
  `List.getD i Cell.empty` (all indexing performed by the source is
  in bounds on the 9-cell boards it constructs);
* Python float scores are embedded as exact rationals `ℚ`, and the
  sentinels `float('-inf')` / `float('inf')` as `⊥` / `⊤` of
  `WithBot (WithTop ℚ)`;
* the process-wide random draws (`random.random()`, `random.choice`)
  are passed in as explicit parameters, so that a statement can
  quantify over every outcome of the randomization.
-/

/-- Cell values of the 9-cell board: the characters `' '`, `'X'`, `'O'`
of the Python board string (`EMPTY`, `PLAYER_X`, `PLAYER_O`). -/
inductive Cell
  | empty
  | X
  | O
deriving DecidableEq, Repr, Fintype

/-- The board: the Python 9-character board string, one `Cell` per character. -/
abbrev Board := List Cell

/-- Winning combinations, in source order: rows, then columns, then diagonals
(`TicTacToeGame.WINNING_COMBINATIONS`). -/
def WINNING_COMBINATIONS : List (Nat × Nat × Nat) :=
  [(0, 1, 2), (3, 4, 5), (6, 7, 8),
   (0, 3, 6), (1, 4, 7), (2, 5, 8),
   (0, 4, 8), (2, 4, 6)]

/-- Board indexing `self.board[i]`. -/
def cellAt (b : Board) (i : Nat) : Cell := b.getD i Cell.empty

/-- `TicTacToeGame.is_valid_move`: `0 <= position <= 8 and player in (X, O)
and board[position] == EMPTY`, with Python short-circuit `and`. The position
is an `Int` because Python accepts any integer argument. -/
def is_valid_move (b : Board) (position : Int) (player : Cell) : Bool :=
  decide (0 ≤ position) && decide (position ≤ 8) &&
    (player == Cell.X || player == Cell.O) &&
    (cellAt b position.toNat == Cell.empty)

/-- `TicTacToeGame.make_move`: on a valid move, rebuilds the board string as
`board[:position] + player + board[position+1:]` and returns `True`; otherwise
returns `False` with the board untouched.  The returned pair is
(result, state of `self.board` after the call). -/
def make_move (b : Board) (position : Int) (player : Cell) : Bool × Board :=
  if is_valid_move b position player then
    (true, b.take position.toNat ++ [player] ++ b.drop (position.toNat + 1))
  else
    (false, b)

/-- One step of the `for combo in WINNING_COMBINATIONS` loop of
`TicTacToeGame.check_winner`: the Python test
`board[c0] != EMPTY and board[c0] == board[c1] == board[c2]`. -/
def lineMatches (b : Board) (c : Nat × Nat × Nat) : Bool :=
  cellAt b c.1 != Cell.empty &&
    cellAt b c.1 == cellAt b c.2.1 && cellAt b c.2.1 == cellAt b c.2.2

/-- The combination loop of `TicTacToeGame.check_winner`: returns the owner of
the first fully occupied line, in enumeration order. -/
def winnerLoop (b : Board) : List (Nat × Nat × Nat) → Option Cell
  | [] => none
  | c :: rest => if lineMatches b c then some (cellAt b c.1) else winnerLoop b rest

/-- `TicTacToeGame.check_winner`: `(game_over, winner)`. -/
def check_winner (b : Board) : Bool × Option Cell :=
  match winnerLoop b WINNING_COMBINATIONS with
  | some w => (true, some w)
  | none => if Cell.empty ∈ b then (false, none) else (true, none)

/-- `TicTacToeGame.get_valid_moves`:
`[i for i, cell in enumerate(self.board) if cell == EMPTY]`. -/
def get_valid_moves (b : Board) : List Nat :=
  (b.enum.filter (fun p => p.2 == Cell.empty)).map Prod.fst

/-- Decoding of one character of a client-supplied board string.  Only
`' '`, `'X'`, `'O'` pass the constructor's validation, so the catch-all
case is never reached on accepted input. -/
def charToCell : Char → Cell
  | 'X' => Cell.X
  | 'O' => Cell.O
  | _ => Cell.empty

/-- Encoding of a cell back into its board-string character. -/
def cellToChar : Cell → Char
  | Cell.empty => ' '
  | Cell.X => 'X'
  | Cell.O => 'O'

/-- `TicTacToeGame.get_board_state`: the 9-character board string. -/
def get_board_state (b : Board) : List Char := b.map cellToChar

/-- `TicTacToeGame.__init__`: with `None` produces the all-empty board;
otherwise validates `len(board_state) == 9` and every character in
`(EMPTY, PLAYER_X, PLAYER_O)`, raising `ValueError("Invalid board state")`
on failure.  The accepted string is stored as the board. -/
def constructBoard : Option (List Char) → Except String Board
  | none => Except.ok (List.replicate 9 Cell.empty)
  | some s =>
    if s.length ≠ 9 ∨ ¬ (∀ c ∈ s, c = ' ' ∨ c = 'X' ∨ c = 'O') then
      Except.error "Invalid board state"
    else
      Except.ok (s.map charToCell)

/-! ## Basic lemmas about the board state machine -/

lemma is_valid_move_iff {b : Board} {pos : Int} {p : Cell} :
    is_valid_move b pos p = true ↔
      0 ≤ pos ∧ pos ≤ 8 ∧ (p = Cell.X ∨ p = Cell.O) ∧ cellAt b pos.toNat = Cell.empty := by
  simp only [is_valid_move, Bool.and_eq_true, Bool.or_eq_true, beq_iff_eq,
    decide_eq_true_eq]
  tauto

lemma make_move_of_valid {b : Board} {pos : Int} {p : Cell}
    (h : is_valid_move b pos p = true) (hlen : pos.toNat < b.length) :
    make_move b pos p = (true, b.set pos.toNat p) := by
  rw [make_move, if_pos h, List.set_eq_take_cons_drop _ hlen]
  simp

lemma make_move_of_invalid {b : Board} {pos : Int} {p : Cell}
    (h : is_valid_move b pos p = false) :
    make_move b pos p = (false, b) := by
  rw [make_move, if_neg (by simp [h])]

lemma cellAt_set_self {b : Board} {n : Nat} {p : Cell} (h : n < b.length) :
    cellAt (b.set n p) n = p := by
  simp [cellAt, List.getD_eq_getElem?_getD, List.getElem?_set_self h]

lemma cellAt_set_ne {b : Board} {n j : Nat} {p : Cell} (h : n ≠ j) :
    cellAt (b.set n p) j = cellAt b j := by
  simp [cellAt, List.getD_eq_getElem?_getD, List.getElem?_set_ne h]

lemma cell_cases (c : Cell) : c = Cell.empty ∨ c = Cell.X ∨ c = Cell.O := by
  cases c <;> simp

lemma mem_get_valid_moves {b : Board} {m : Nat} :
    m ∈ get_valid_moves b ↔ m < b.length ∧ cellAt b m = Cell.empty := by
  simp only [get_valid_moves, List.mem_map, List.mem_filter, beq_iff_eq]
  constructor
  · rintro ⟨⟨i, c⟩, ⟨hmem, hc⟩, rfl⟩
    have h := List.mk_mem_enum_iff_getElem?.1 hmem
    have hlt : i < b.length := by
      rcases List.getElem?_eq_some.1 h with ⟨hw, -⟩
      exact hw
    refine ⟨hlt, ?_⟩
    simp only [cellAt, List.getD_eq_getElem?_getD, h, Option.getD_some]
    exact hc
  · rintro ⟨hm, hc⟩
    refine ⟨(m, Cell.empty), ⟨?_, rfl⟩, rfl⟩
    apply List.mk_mem_enum_iff_getElem?.2
    rw [List.getElem?_eq_getElem hm]
    simp only [cellAt, List.getD_eq_getElem?_getD, List.getElem?_eq_getElem hm,
      Option.getD_some] at hc
    simp [hc]

lemma get_valid_moves_ne_nil_of_mem_empty {b : Board} (h : Cell.empty ∈ b) :
    get_valid_moves b ≠ [] := by
  rcases List.getElem_of_mem h with ⟨i, hi, hcell⟩
  have : i ∈ get_valid_moves b := by
    refine mem_get_valid_moves.2 ⟨hi, ?_⟩
    simp [cellAt, List.getD_eq_getElem?_getD, List.getElem?_eq_getElem hi, hcell]
  intro hnil
  rw [hnil] at this
  exact List.not_mem_nil _ this

/-! ## Characterization of the winner loop -/

/-- A winning line fully occupied by the player `p`. -/
def lineFilledBy (b : Board) (c : Nat × Nat × Nat) (p : Cell) : Prop :=
  p ≠ Cell.empty ∧ cellAt b c.1 = p ∧ cellAt b c.2.1 = p ∧ cellAt b c.2.2 = p

instance (b : Board) (c : Nat × Nat × Nat) (p : Cell) :
    Decidable (lineFilledBy b c p) := by
  unfold lineFilledBy
  infer_instance

lemma lineMatches_iff_exists {b : Board} {c : Nat × Nat × Nat} :
    lineMatches b c = true ↔ ∃ p, lineFilledBy b c p := by
  simp only [lineMatches, Bool.and_eq_true, bne_iff_ne, beq_iff_eq, lineFilledBy]
  constructor
  · rintro ⟨⟨hne, h1⟩, h2⟩
    exact ⟨cellAt b c.1, hne, rfl, h1.symm, by rw [← h2, ← h1]⟩
  · rintro ⟨p, hp, h1, h2, h3⟩
    refine ⟨⟨by rw [h1]; exact hp, by rw [h1, h2]⟩, by rw [h2, h3]⟩

lemma lineMatches_false_iff {b : Board} {c : Nat × Nat × Nat} :
    lineMatches b c = false ↔ ∀ p, ¬ lineFilledBy b c p := by
  rw [← Bool.not_eq_true, lineMatches_iff_exists]
  push_neg
  rfl

lemma winnerLoop_eq_none_iff {b : Board} :
    ∀ cs : List (Nat × Nat × Nat),
      winnerLoop b cs = none ↔ ∀ c ∈ cs, ∀ p, ¬ lineFilledBy b c p := by
  intro cs
  induction cs with
  | nil => simp [winnerLoop]
  | cons c rest ih =>
    rw [winnerLoop]
    by_cases h : lineMatches b c = true
    · rw [if_pos h]
      constructor
      · intro hcontra
        exact absurd hcontra (by simp)
      · intro hall
        rcases lineMatches_iff_exists.1 h with ⟨p, hp⟩
        exact absurd hp (hall c (List.mem_cons_self c rest) p)
    · rw [if_neg h, ih]
      rw [Bool.not_eq_true] at h
      constructor
      · intro hall c₂ hc₂ p
        rcases List.mem_cons.1 hc₂ with rfl | hmem
        · exact lineMatches_false_iff.1 h p
        · exact hall c₂ hmem p
      · intro hall c₂ hc₂ p
        exact hall c₂ (List.mem_cons_of_mem _ hc₂) p

lemma winnerLoop_eq_some_iff {b : Board} :
    ∀ (cs : List (Nat × Nat × Nat)) (w : Cell),
      winnerLoop b cs = some w ↔
        ∃ i < cs.length, lineFilledBy b (cs.getD i (0, 0, 0)) w ∧
          ∀ j < i, ∀ p, ¬ lineFilledBy b (cs.getD j (0, 0, 0)) p := by
  intro cs
  induction cs with
  | nil => simp [winnerLoop]
  | cons c rest ih =>
    intro w
    rw [winnerLoop]
    by_cases h : lineMatches b c = true
    · rw [if_pos h]
      simp only [Option.some.injEq]
      constructor
      · rintro rfl
        rcases lineMatches_iff_exists.1 h with ⟨p, hp⟩
        have hpc : cellAt b c.1 = p := hp.2.1
        refine ⟨0, by simp, ?_, by omega⟩
        rw [List.getD_cons_zero, hpc]
        exact hp
      · rintro ⟨i, hi, hfill, hfirst⟩
        cases i with
        | zero =>
          rw [List.getD_cons_zero] at hfill
          exact hfill.2.1
        | succ j =>
          exfalso
          rcases lineMatches_iff_exists.1 h with ⟨p, hp⟩
          exact hfirst 0 (Nat.succ_pos j) p (by simpa [List.getD_cons_zero] using hp)
    · rw [if_neg h, ih]
      rw [Bool.not_eq_true] at h
      constructor
      · rintro ⟨i, hi, hfill, hfirst⟩
        refine ⟨i + 1, by simpa using Nat.succ_lt_succ hi, by simpa using hfill, ?_⟩
        intro j hj p
        cases j with
        | zero =>
          rw [List.getD_cons_zero]
          exact lineMatches_false_iff.1 h p
        | succ k =>
          rw [List.getD_cons_succ]
          exact hfirst k (by omega) p
      · rintro ⟨i, hi, hfill, hfirst⟩
        cases i with
        | zero =>
          exfalso
          rw [List.getD_cons_zero] at hfill
          exact lineMatches_false_iff.1 h w hfill
        | succ k =>
          refine ⟨k, by simpa using hi, by simpa using hfill, ?_⟩
          intro j hj p
          have hkey := hfirst (j + 1) (by omega) p
          simpa using hkey

/-! ## Claim C2: characterization of check_winner -/

/-- C2: for every 9-cell board, `check_winner` returns `(true, some w)` exactly
when some winning line is fully occupied by one player, with `w` the owner of
the first such line in the fixed enumeration order (rows, columns, diagonals);
`(true, none)` exactly when no line is fully occupied and no cell is empty;
and `(false, none)` otherwise. -/
theorem C2_check_terminal_characterization :
    ∀ b : Board, b.length = 9 →
      (∀ w, check_winner b = (true, some w) ↔
        ∃ i < 8, lineFilledBy b (WINNING_COMBINATIONS.getD i (0, 0, 0)) w ∧
          ∀ j < i, ∀ p, ¬ lineFilledBy b (WINNING_COMBINATIONS.getD j (0, 0, 0)) p)
      ∧ (check_winner b = (true, none) ↔
          ((∀ c ∈ WINNING_COMBINATIONS, ∀ p, ¬ lineFilledBy b c p) ∧ Cell.empty ∉ b))
      ∧ (check_winner b = (false, none) ↔
          ((∀ c ∈ WINNING_COMBINATIONS, ∀ p, ¬ lineFilledBy b c p) ∧ Cell.empty ∈ b)) := by
  intro b _
  have hsome := fun w => @winnerLoop_eq_some_iff b WINNING_COMBINATIONS w
  have hnone := @winnerLoop_eq_none_iff b WINNING_COMBINATIONS
  have hlen : WINNING_COMBINATIONS.length = 8 := rfl
  simp only [hlen] at hsome
  unfold check_winner
  cases hw : winnerLoop b WINNING_COMBINATIONS with
  | some w0 =>
    dsimp only
    refine ⟨fun w => ?_, ?_, ?_⟩
    · rw [← hsome w, hw]
      simp [Prod.ext_iff]
    · constructor
      · intro hcontra
        simp at hcontra
      · rintro ⟨hall, -⟩
        rw [hnone.2 hall] at hw
        exact absurd hw (by simp)
    · constructor
      · intro hcontra
        simp at hcontra
      · rintro ⟨hall, -⟩
        rw [hnone.2 hall] at hw
        exact absurd hw (by simp)
  | none =>
    dsimp only
    have hall := hnone.1 hw
    by_cases hmem : Cell.empty ∈ b
    · rw [if_pos hmem]
      refine ⟨fun w => ?_, ?_, ?_⟩
      · constructor
        · intro hcontra
          simp at hcontra
        · intro hrhs
          rw [(hsome w).2 hrhs] at hw
          exact absurd hw (by simp)
      · constructor
        · intro hcontra
          simp at hcontra
        · rintro ⟨-, habs⟩
          exact absurd hmem habs
      · exact ⟨fun _ => ⟨hall, hmem⟩, fun _ => rfl⟩
    · rw [if_neg hmem]
      refine ⟨fun w => ?_, ?_, ?_⟩
      · constructor
        · intro hcontra
          simp at hcontra
        · intro hrhs
          rw [(hsome w).2 hrhs] at hw
          exact absurd hw (by simp)
      · exact ⟨fun _ => ⟨hall, hmem⟩, fun _ => rfl⟩
      · constructor
        · intro hcontra
          simp at hcontra
        · rintro ⟨-, habs⟩
          exact absurd habs hmem

/-- C2 witness: on the concrete board `"XXX      "` the characterization
instantiates to scenario 2 of the spec. -/
theorem C2_check_terminal_characterization_witness :
    check_winner [Cell.X, Cell.X, Cell.X, Cell.empty, Cell.empty, Cell.empty,
      Cell.empty, Cell.empty, Cell.empty] = (true, some Cell.X) :=
  ((C2_check_terminal_characterization
      [Cell.X, Cell.X, Cell.X, Cell.empty, Cell.empty, Cell.empty,
        Cell.empty, Cell.empty, Cell.empty] rfl).1 Cell.X).2
    ⟨0, by decide, by decide, by intro j hj p; omega⟩

/-! ## Claim C3: frame conditions of make_move -/

/-- C3: a valid move (position in range, player a real player, target empty)
succeeds and sets exactly the addressed cell; an invalid move fails and leaves
the board untouched; in both cases the board keeps length 9 and all cells stay
in the three-valued cell alphabet. -/
theorem C3_apply_move_frame :
    ∀ (b : Board) (pos : Int) (player : Cell), b.length = 9 →
      (is_valid_move b pos player = true ↔
        (0 ≤ pos ∧ pos ≤ 8 ∧ (player = Cell.X ∨ player = Cell.O) ∧
          cellAt b pos.toNat = Cell.empty))
      ∧ (is_valid_move b pos player = true →
          (make_move b pos player).1 = true ∧
          cellAt (make_move b pos player).2 pos.toNat = player ∧
          ∀ j : Nat, (j : Int) ≠ pos → cellAt (make_move b pos player).2 j = cellAt b j)
      ∧ (is_valid_move b pos player = false → make_move b pos player = (false, b))
      ∧ (make_move b pos player).2.length = 9
      ∧ ∀ c ∈ (make_move b pos player).2, c = Cell.empty ∨ c = Cell.X ∨ c = Cell.O := by
  intro b pos player hb
  refine ⟨is_valid_move_iff, ?_, make_move_of_invalid, ?_, fun c _ => cell_cases c⟩
  · intro hv
    obtain ⟨h0, h8, -, -⟩ := is_valid_move_iff.1 hv
    have hlt : pos.toNat < b.length := by rw [hb]; omega
    rw [make_move_of_valid hv hlt]
    refine ⟨rfl, cellAt_set_self hlt, ?_⟩
    intro j hj
    apply cellAt_set_ne
    omega
  · by_cases hv : is_valid_move b pos player = true
    · obtain ⟨h0, h8, -, -⟩ := is_valid_move_iff.1 hv
      have hlt : pos.toNat < b.length := by rw [hb]; omega
      rw [make_move_of_valid hv hlt]
      simp [hb]
    · rw [make_move_of_invalid (by simpa using hv)]
      exact hb

/-- C3 witness: scenario 1 of the spec, placing X in the centre of the empty
board. -/
theorem C3_apply_move_frame_witness :
    cellAt (make_move (List.replicate 9 Cell.empty) 4 Cell.X).2 4 = Cell.X ∧
    cellAt (make_move (List.replicate 9 Cell.empty) 4 Cell.X).2 0 = Cell.empty :=
  ⟨((C3_apply_move_frame (List.replicate 9 Cell.empty) 4 Cell.X rfl).2.1
      (by decide)).2.1,
   ((C3_apply_move_frame (List.replicate 9 Cell.empty) 4 Cell.X rfl).2.1
      (by decide)).2.2 0 (by decide)⟩

/-! ## Claims C8 and C9: board construction and the snapshot encoding -/

lemma cellToChar_charToCell {c : Char} (h : c = ' ' ∨ c = 'X' ∨ c = 'O') :
    cellToChar (charToCell c) = c := by
  rcases h with rfl | rfl | rfl <;> rfl

lemma charToCell_cellToChar (x : Cell) : charToCell (cellToChar x) = x := by
  cases x <;> rfl

lemma get_board_state_valid (b : Board) :
    ∀ c ∈ get_board_state b, c = ' ' ∨ c = 'X' ∨ c = 'O' := by
  intro c hc
  rcases List.mem_map.1 hc with ⟨x, -, rfl⟩
  cases x <;> simp [cellToChar]

/-- C8: every valid 9-character sequence over the alphabet constructs
successfully and snapshots back to itself character for character, and every
9-cell board round-trips structurally through construction of its snapshot. -/
theorem C8_snapshot_roundtrip :
    (∀ s : List Char, s.length = 9 → (∀ c ∈ s, c = ' ' ∨ c = 'X' ∨ c = 'O') →
        constructBoard (some s) = Except.ok (s.map charToCell) ∧
        get_board_state (s.map charToCell) = s)
    ∧ (∀ b : Board, b.length = 9 →
        constructBoard (some (get_board_state b)) = Except.ok b) := by
  constructor
  · intro s hlen hvalid
    constructor
    · show (if s.length ≠ 9 ∨ ¬ (∀ c ∈ s, c = ' ' ∨ c = 'X' ∨ c = 'O') then
          (Except.error "Invalid board state" : Except String Board)
        else Except.ok (s.map charToCell)) = Except.ok (s.map charToCell)
      rw [if_neg]
      push_neg
      exact ⟨hlen, hvalid⟩
    · unfold get_board_state
      rw [List.map_map]
      have hcongr : ∀ c ∈ s, (cellToChar ∘ charToCell) c = id c :=
        fun c hc => cellToChar_charToCell (hvalid c hc)
      exact (List.map_congr_left hcongr).trans (List.map_id s)
  · intro b hb
    show (if (get_board_state b).length ≠ 9 ∨
          ¬ (∀ c ∈ get_board_state b, c = ' ' ∨ c = 'X' ∨ c = 'O') then
        (Except.error "Invalid board state" : Except String Board)
      else Except.ok ((get_board_state b).map charToCell)) = Except.ok b
    rw [if_neg]
    · unfold get_board_state
      rw [List.map_map]
      have hcongr : ∀ x ∈ b, (charToCell ∘ cellToChar) x = id x :=
        fun x _ => charToCell_cellToChar x
      rw [(List.map_congr_left hcongr).trans (List.map_id b)]
    · push_neg
      refine ⟨by simp [get_board_state, hb], get_board_state_valid b⟩

/-- C8 witness: the round trip evaluated on the concrete snapshot
`" XO   O X"`. -/
theorem C8_snapshot_roundtrip_witness :
    constructBoard (some [' ', 'X', 'O', ' ', ' ', ' ', 'O', ' ', 'X']) =
      Except.ok ([' ', 'X', 'O', ' ', ' ', ' ', 'O', ' ', 'X'].map charToCell) ∧
    get_board_state ([' ', 'X', 'O', ' ', ' ', ' ', 'O', ' ', 'X'].map charToCell) =
      [' ', 'X', 'O', ' ', ' ', ' ', 'O', ' ', 'X'] :=
  C8_snapshot_roundtrip.1 [' ', 'X', 'O', ' ', ' ', ' ', 'O', ' ', 'X'] rfl (by decide)

/-- C9: construction fails with the invalid-board-state error exactly when the
supplied sequence has length other than 9 or contains a character outside the
alphabet; with no argument it produces the all-empty board; and the concrete
two-character string "XO" is rejected. -/
theorem C9_construct_validation :
    (∀ s : List Char,
        constructBoard (some s) = Except.error "Invalid board state" ↔
          (s.length ≠ 9 ∨ ∃ c ∈ s, c ≠ ' ' ∧ c ≠ 'X' ∧ c ≠ 'O'))
    ∧ constructBoard none = Except.ok (List.replicate 9 Cell.empty)
    ∧ constructBoard (some ['X', 'O']) = Except.error "Invalid board state" := by
  refine ⟨?_, rfl, ?_⟩
  · intro s
    show (if s.length ≠ 9 ∨ ¬ (∀ c ∈ s, c = ' ' ∨ c = 'X' ∨ c = 'O') then
        (Except.error "Invalid board state" : Except String Board)
      else Except.ok (s.map charToCell)) = Except.error "Invalid board state" ↔ _
    by_cases h : s.length ≠ 9 ∨ ¬ (∀ c ∈ s, c = ' ' ∨ c = 'X' ∨ c = 'O')
    · rw [if_pos h]
      simp only [true_iff, iff_true]
      · rcases h with h | h
        · exact Or.inl h
        · right
          push_neg at h
          rcases h with ⟨c, hc, hval⟩
          exact ⟨c, hc, by tauto⟩
    · rw [if_neg h]
      push_neg at h
      constructor
      · intro hcontra
        simp at hcontra
      · rintro (hlen | ⟨c, hc, h1, h2, h3⟩)
        · exact absurd h.1 hlen
        · rcases h.2 c hc with rfl | rfl | rfl <;> tauto
  · show (if (['X', 'O'] : List Char).length ≠ 9 ∨
        ¬ (∀ c ∈ (['X', 'O'] : List Char), c = ' ' ∨ c = 'X' ∨ c = 'O') then
        (Except.error "Invalid board state" : Except String Board)
      else Except.ok ((['X', 'O'] : List Char).map charToCell)) =
        Except.error "Invalid board state"
    rw [if_pos]
    exact Or.inl (by decide)

/-! ## The minimax AI: data and parameters -/

/-- `MinimaxAI.POSITION_WEIGHTS`: strategic weights (corner, edge, corner /
edge, center, edge / corner, edge, corner). -/
def POSITION_WEIGHTS : List Nat := [3, 2, 3, 2, 4, 2, 3, 2, 3]

/-- Difficulty levels accepted by `MinimaxAI.__init__`. -/
inductive Difficulty
  | easy
  | medium
  | hard
deriving DecidableEq, Repr

/-- `self.max_depth` as configured by `MinimaxAI.__init__`. -/
def max_depth : Difficulty → Nat
  | Difficulty.easy => 2
  | Difficulty.medium => 4
  | Difficulty.hard => 9

/-- `self.randomization` as configured by `MinimaxAI.__init__`. -/
def randomization : Difficulty → ℚ
  | Difficulty.easy => 0.4
  | Difficulty.medium => 0.2
  | Difficulty.hard => 0.0

/-- `self.use_position_weights` as configured by `MinimaxAI.__init__`. -/
def use_position_weights : Difficulty → Bool
  | Difficulty.easy => false
  | Difficulty.medium => true
  | Difficulty.hard => true

/-- Python float scores embedded exactly: finite scores are rationals and
`float('-inf')` / `float('inf')` are `⊥` / `⊤`. -/
abbrev Score := WithBot (WithTop ℚ)

/-- Embedding of a finite score. -/
def toScore (q : ℚ) : Score := ((q : WithTop ℚ) : WithBot (WithTop ℚ))

lemma toScore_le_toScore {a b : ℚ} : toScore a ≤ toScore b ↔ a ≤ b := by
  simp [toScore]

lemma toScore_lt_toScore {a b : ℚ} : toScore a < toScore b ↔ a < b := by
  simp [toScore]

lemma bot_lt_toScore (q : ℚ) : (⊥ : Score) < toScore q :=
  WithBot.bot_lt_coe _

lemma toScore_lt_top (q : ℚ) : toScore q < (⊤ : Score) := by
  have h : ((⊤ : WithTop ℚ) : Score) = (⊤ : Score) := rfl
  rw [← h]
  exact WithBot.coe_lt_coe.2 (WithTop.coe_lt_top q)

lemma toScore_inj {a b : ℚ} : toScore a = toScore b ↔ a = b := by
  simp [toScore]

lemma max_toScore (a b : ℚ) : max (toScore a) (toScore b) = toScore (max a b) := by
  rw [toScore, toScore, toScore, WithTop.coe_max, WithBot.coe_max]

lemma min_toScore (a b : ℚ) : min (toScore a) (toScore b) = toScore (min a b) := by
  rw [toScore, toScore, toScore, WithTop.coe_min, WithBot.coe_min]

lemma toScore_add (a b : ℚ) : toScore a + toScore b = toScore (a + b) := by
  rw [toScore, toScore, toScore, WithTop.coe_add, WithBot.coe_add]

/-! ## The static evaluation (`MinimaxAI._evaluate_position`) -/

/-- One iteration of the winning-combination loop of
`MinimaxAI._evaluate_position`, threading the accumulated score. -/
def lineEvalStep (b : Board) (score : ℚ) (c : Nat × Nat × Nat) : ℚ :=
  let line := [cellAt b c.1, cellAt b c.2.1, cellAt b c.2.2]
  let ai_count := line.count Cell.O
  let human_count := line.count Cell.X
  let empty_count := line.count Cell.empty
  if ai_count = 2 ∧ empty_count = 1 then score + 5
  else if human_count = 2 ∧ empty_count = 1 then score - 4
  else if ai_count = 1 ∧ empty_count = 2 then score + 1
  else if human_count = 1 ∧ empty_count = 2 then score - 1
  else score

/-- One iteration of the position-weight loop of
`MinimaxAI._evaluate_position` (`for pos, weight in enumerate(...)`). -/
def weightStep (b : Board) (score : ℚ) (pw : Nat × Nat) : ℚ :=
  if cellAt b pw.1 = Cell.O then score + 0.3 * (pw.2 : ℚ)
  else if cellAt b pw.1 = Cell.X then score - 0.3 * (pw.2 : ℚ)
  else score

/-- `MinimaxAI._evaluate_position`: the horizon heuristic. -/
def evaluate_position (useW : Bool) (b : Board) : ℚ :=
  let score := WINNING_COMBINATIONS.foldl (lineEvalStep b) 0
  if useW then POSITION_WEIGHTS.enum.foldl (weightStep b) score else score

/-! ## Minimax with alpha-beta pruning (`MinimaxAI._minimax`) -/

/-- The board of the clone `TicTacToeGame(game.board)` after
`game_copy.make_move(move, player)`. -/
def childBoard (b : Board) (m : Nat) (p : Cell) : Board :=
  (make_move b (m : Int) p).2

/-- The maximizing loop of `MinimaxAI._minimax`: updates `max_score` and
`alpha` per candidate and breaks as soon as `beta <= alpha`. -/
def abMaxLoop {α : Type} [LinearOrder α] (f : Nat → α → α → α) :
    List Nat → α → α → α → α
  | [], _, _, acc => acc
  | m :: rest, alpha, beta, acc =>
    let score := f m alpha beta
    let acc2 := max acc score
    let alpha2 := max alpha score
    if beta ≤ alpha2 then acc2 else abMaxLoop f rest alpha2 beta acc2

/-- The minimizing loop of `MinimaxAI._minimax`: updates `min_score` and
`beta` per candidate and breaks as soon as `beta <= alpha`. -/
def abMinLoop {α : Type} [LinearOrder α] (f : Nat → α → α → α) :
    List Nat → α → α → α → α
  | [], _, _, acc => acc
  | m :: rest, alpha, beta, acc =>
    let score := f m alpha beta
    let acc2 := min acc score
    let beta2 := min beta score
    if beta2 ≤ alpha then acc2 else abMinLoop f rest alpha beta2 acc2

/-- `MinimaxAI._minimax`: the terminal test comes first (`100 + depth` for an
O win, `-100 - depth` for an X win, `0` for a draw), then the `depth == 0`
horizon cutoff returning the static evaluation, then the alpha-beta
maximizing/minimizing loops over the valid moves, each applied to a freshly
cloned board. -/
def minimax (useW : Bool) (depth : Nat) (g : Board) (alpha beta : Score)
    (is_maximizing : Bool) : Score :=
  match depth, check_winner g with
  | d, (true, winner) =>
    if winner = some Cell.O then toScore (100 + d)
    else if winner = some Cell.X then toScore (-100 - d)
    else toScore 0
  | 0, (false, _) => toScore (evaluate_position useW g)
  | d + 1, (false, _) =>
    if is_maximizing then
      abMaxLoop (fun m a bt => minimax useW d (childBoard g m Cell.O) a bt false)
        (get_valid_moves g) alpha beta ⊥
    else
      abMinLoop (fun m a bt => minimax useW d (childBoard g m Cell.X) a bt true)
        (get_valid_moves g) alpha beta ⊤
termination_by depth

/-- The maximizing loop with the `beta <= alpha` cut-off removed (the alpha
and beta parameters then have no effect and are dropped). -/
def plainMaxLoop {α : Type} [LinearOrder α] (f : Nat → α) : List Nat → α → α
  | [], acc => acc
  | m :: rest, acc => plainMaxLoop f rest (max acc (f m))

/-- The minimizing loop with the `beta <= alpha` cut-off removed. -/
def plainMinLoop {α : Type} [LinearOrder α] (f : Nat → α) : List Nat → α → α
  | [], acc => acc
  | m :: rest, acc => plainMinLoop f rest (min acc (f m))

/-- The recursion of `MinimaxAI._minimax` with the alpha-beta cut-off removed:
the reference (unpruned) minimax value. -/
def plainMinimax (useW : Bool) (depth : Nat) (g : Board) (is_maximizing : Bool) :
    Score :=
  match depth, check_winner g with
  | d, (true, winner) =>
    if winner = some Cell.O then toScore (100 + d)
    else if winner = some Cell.X then toScore (-100 - d)
    else toScore 0
  | 0, (false, _) => toScore (evaluate_position useW g)
  | d + 1, (false, _) =>
    if is_maximizing then
      plainMaxLoop (fun m => plainMinimax useW d (childBoard g m Cell.O) false)
        (get_valid_moves g) ⊥
    else
      plainMinLoop (fun m => plainMinimax useW d (childBoard g m Cell.X) true)
        (get_valid_moves g) ⊤
termination_by depth

/-! ## Move selection (`MinimaxAI.get_ai_move`) -/

/-- The score assigned to one candidate move in `MinimaxAI.get_ai_move`: the
minimax value of the cloned board after the move (full alpha-beta window),
plus `POSITION_WEIGHTS[move] * 0.1` when position weights are in use. -/
def candidateScore (useW : Bool) (maxd : Nat) (g : Board) (m : Nat) : Score :=
  let score := minimax useW maxd (childBoard g m Cell.O) ⊥ ⊤ false
  if useW then score + toScore ((POSITION_WEIGHTS.getD m 0 : ℚ) * 0.1) else score

/-- The best-move accumulation loop of `MinimaxAI.get_ai_move`: tracks
`best_score` and the list `best_moves` of ties, in candidate order. -/
def bestLoop (f : Nat → Score) : List Nat → Score → List Nat → Score × List Nat
  | [], best_score, best_moves => (best_score, best_moves)
  | m :: rest, best_score, best_moves =>
    let score := f m
    if best_score < score then bestLoop f rest score [m]
    else if score = best_score then bestLoop f rest best_score (best_moves ++ [m])
    else bestLoop f rest best_score best_moves

/-- `MinimaxAI.get_ai_move`.  The two random draws are explicit parameters:
`r` is the value of `random.random()` compared against the randomization
probability, and `skipIdx` / `tieIdx` select (mod the list length) which
element `random.choice` picks from the respective nonempty list, so that
quantifying over them covers every outcome of the randomization. -/
def get_ai_move (diff : Difficulty) (g : Board) (r : ℚ) (skipIdx tieIdx : Nat) :
    Option Nat :=
  let valid_moves := get_valid_moves g
  if valid_moves.isEmpty then none
  else if r < randomization diff then
    some (valid_moves.getD (skipIdx % valid_moves.length) 0)
  else
    let best := bestLoop (candidateScore (use_position_weights diff) (max_depth diff) g)
        valid_moves ⊥ []
    some (best.2.getD (tieIdx % best.2.length) 0)

/-! ## Unfolding lemmas for minimax -/

lemma minimax_terminal {useW : Bool} {d : Nat} {g : Board} {al bt : Score}
    {mx : Bool} {w : Option Cell} (h : check_winner g = (true, w)) :
    minimax useW d g al bt mx =
      (if w = some Cell.O then toScore (100 + d)
       else if w = some Cell.X then toScore (-100 - d)
       else toScore 0) := by
  unfold minimax
  rw [h]
  cases d <;> rfl

lemma plainMinimax_terminal {useW : Bool} {d : Nat} {g : Board} {mx : Bool}
    {w : Option Cell} (h : check_winner g = (true, w)) :
    plainMinimax useW d g mx =
      (if w = some Cell.O then toScore (100 + d)
       else if w = some Cell.X then toScore (-100 - d)
       else toScore 0) := by
  unfold plainMinimax
  rw [h]
  cases d <;> rfl

lemma minimax_horizon {useW : Bool} {g : Board} {al bt : Score} {mx : Bool}
    {w : Option Cell} (h : check_winner g = (false, w)) :
    minimax useW 0 g al bt mx = toScore (evaluate_position useW g) := by
  unfold minimax
  rw [h]

lemma plainMinimax_horizon {useW : Bool} {g : Board} {mx : Bool}
    {w : Option Cell} (h : check_winner g = (false, w)) :
    plainMinimax useW 0 g mx = toScore (evaluate_position useW g) := by
  unfold plainMinimax
  rw [h]

lemma minimax_step_max {useW : Bool} {d : Nat} {g : Board} {al bt : Score}
    {w : Option Cell} (h : check_winner g = (false, w)) :
    minimax useW (d + 1) g al bt true =
      abMaxLoop (fun m a b2 => minimax useW d (childBoard g m Cell.O) a b2 false)
        (get_valid_moves g) al bt ⊥ := by
  conv_lhs => unfold minimax
  rw [h]
  rfl

lemma minimax_step_min {useW : Bool} {d : Nat} {g : Board} {al bt : Score}
    {w : Option Cell} (h : check_winner g = (false, w)) :
    minimax useW (d + 1) g al bt false =
      abMinLoop (fun m a b2 => minimax useW d (childBoard g m Cell.X) a b2 true)
        (get_valid_moves g) al bt ⊤ := by
  conv_lhs => unfold minimax
  rw [h]
  rfl

lemma plainMinimax_step_max {useW : Bool} {d : Nat} {g : Board}
    {w : Option Cell} (h : check_winner g = (false, w)) :
    plainMinimax useW (d + 1) g true =
      plainMaxLoop (fun m => plainMinimax useW d (childBoard g m Cell.O) false)
        (get_valid_moves g) ⊥ := by
  conv_lhs => unfold plainMinimax
  rw [h]
  rfl

lemma plainMinimax_step_min {useW : Bool} {d : Nat} {g : Board}
    {w : Option Cell} (h : check_winner g = (false, w)) :
    plainMinimax useW (d + 1) g false =
      plainMinLoop (fun m => plainMinimax useW d (childBoard g m Cell.X) true)
        (get_valid_moves g) ⊤ := by
  conv_lhs => unfold plainMinimax
  rw [h]
  rfl

/-! ## Claim C5: terminal and horizon cases of minimax -/

/-- C5: whenever the board is terminal, minimax returns `100 + depth` for an
O win, `-100 - depth` for an X win and `0` for a draw, at every depth
(including 0: the terminal test precedes the depth test); on a non-terminal
board with depth 0 it returns exactly the static evaluation. -/
theorem C5_minimax_terminal_and_horizon :
    ∀ (b : Board) (useW : Bool) (d : Nat) (al bt : Score) (mx : Bool),
      b.length = 9 →
      ((check_winner b).1 = true →
        minimax useW d b al bt mx =
          (if (check_winner b).2 = some Cell.O then toScore (100 + d)
           else if (check_winner b).2 = some Cell.X then toScore (-100 - d)
           else toScore 0))
      ∧ ((check_winner b).1 = false → d = 0 →
          minimax useW d b al bt mx = toScore (evaluate_position useW b)) := by
  intro b useW d al bt mx _
  rcases hcw : check_winner b with ⟨ov, w⟩
  constructor
  · intro hover
    have hov : ov = true := hover
    subst hov
    exact minimax_terminal hcw
  · intro hnot hd
    subst hd
    have hov : ov = false := hnot
    subst hov
    exact minimax_horizon hcw

/-- C5 witness: the two cases evaluated concretely, on the won board
`"XXX      "` at depth 3 and on the empty board at depth 0. -/
theorem C5_minimax_terminal_and_horizon_witness :
    minimax false 3 [Cell.X, Cell.X, Cell.X, Cell.empty, Cell.empty, Cell.empty,
      Cell.empty, Cell.empty, Cell.empty] ⊥ ⊤ true = toScore (-100 - (3 : Nat)) ∧
    minimax true 0 (List.replicate 9 Cell.empty) ⊥ ⊤ true =
      toScore (evaluate_position true (List.replicate 9 Cell.empty)) := by
  constructor
  · have h := (C5_minimax_terminal_and_horizon
      [Cell.X, Cell.X, Cell.X, Cell.empty, Cell.empty, Cell.empty,
        Cell.empty, Cell.empty, Cell.empty] false 3 ⊥ ⊤ true rfl).1 (by decide)
    rw [h, show (check_winner [Cell.X, Cell.X, Cell.X, Cell.empty, Cell.empty,
      Cell.empty, Cell.empty, Cell.empty, Cell.empty]).2 = some Cell.X from rfl]
    rw [if_neg (by decide), if_pos rfl]
  · exact (C5_minimax_terminal_and_horizon (List.replicate 9 Cell.empty)
      true 0 ⊥ ⊤ true rfl).2 (by decide) rfl

/-! ## Claim C6: the static evaluation formula -/

lemma foldl_add_eq_sum {α : Type} (step : ℚ → α → ℚ) (v : α → ℚ)
    (h : ∀ s x, step s x = s + v x) :
    ∀ (l : List α) (a : ℚ), l.foldl step a = a + (l.map v).sum := by
  intro l
  induction l with
  | nil => intro a; simp
  | cons x xs ih =>
    intro a
    rw [List.foldl_cons, h, List.map_cons, List.sum_cons, ih]
    ring

/-- C6: the static evaluation is the sum over the 8 winning lines of the
two-in-a-row / one-in-a-row scores, plus (when position weights are enabled)
`0.3 * weight` for each O-occupied cell and `-0.3 * weight` for each
X-occupied cell, with the corner/edge/center weight table. -/
theorem C6_static_evaluation_formula :
    ∀ (b : Board) (useW : Bool), b.length = 9 →
      evaluate_position useW b =
        (WINNING_COMBINATIONS.map (fun c =>
            let line := [cellAt b c.1, cellAt b c.2.1, cellAt b c.2.2]
            if line.count Cell.O = 2 ∧ line.count Cell.empty = 1 then (5 : ℚ)
            else if line.count Cell.X = 2 ∧ line.count Cell.empty = 1 then -4
            else if line.count Cell.O = 1 ∧ line.count Cell.empty = 2 then 1
            else if line.count Cell.X = 1 ∧ line.count Cell.empty = 2 then -1
            else 0)).sum +
        (if useW then
          ((List.range 9).map (fun p =>
            if cellAt b p = Cell.O then 0.3 * (POSITION_WEIGHTS.getD p 0 : ℚ)
            else if cellAt b p = Cell.X then -(0.3 * (POSITION_WEIGHTS.getD p 0 : ℚ))
            else 0)).sum
         else 0) := by
  intro b useW _
  have hline : ∀ (s : ℚ) (c : Nat × Nat × Nat),
      lineEvalStep b s c = s +
        (fun c : Nat × Nat × Nat =>
          let line := [cellAt b c.1, cellAt b c.2.1, cellAt b c.2.2]
          if line.count Cell.O = 2 ∧ line.count Cell.empty = 1 then (5 : ℚ)
          else if line.count Cell.X = 2 ∧ line.count Cell.empty = 1 then -4
          else if line.count Cell.O = 1 ∧ line.count Cell.empty = 2 then 1
          else if line.count Cell.X = 1 ∧ line.count Cell.empty = 2 then -1
          else 0) c := by
    intro s c
    unfold lineEvalStep
    dsimp only
    split_ifs <;> ring
  have hw : ∀ (s : ℚ) (pw : Nat × Nat),
      weightStep b s pw = s +
        (fun pw : Nat × Nat =>
          if cellAt b pw.1 = Cell.O then 0.3 * (pw.2 : ℚ)
          else if cellAt b pw.1 = Cell.X then -(0.3 * (pw.2 : ℚ))
          else 0) pw := by
    intro s pw
    unfold weightStep
    dsimp only
    split_ifs <;> ring
  cases useW with
  | false =>
    rw [show evaluate_position false b = WINNING_COMBINATIONS.foldl (lineEvalStep b) 0
        from rfl]
    rw [foldl_add_eq_sum _ _ hline]
    simp
  | true =>
    rw [show evaluate_position true b =
        POSITION_WEIGHTS.enum.foldl (weightStep b)
          (WINNING_COMBINATIONS.foldl (lineEvalStep b) 0) from rfl]
    rw [foldl_add_eq_sum _ _ hw, foldl_add_eq_sum _ _ hline]
    have henum : (List.range 9) = POSITION_WEIGHTS.enum.map Prod.fst := by decide
    rw [if_pos rfl, henum, List.map_map]
    have hcongr : ∀ pw ∈ POSITION_WEIGHTS.enum,
        ((fun p =>
            if cellAt b p = Cell.O then 0.3 * (POSITION_WEIGHTS.getD p 0 : ℚ)
            else if cellAt b p = Cell.X then -(0.3 * (POSITION_WEIGHTS.getD p 0 : ℚ))
            else 0) ∘ Prod.fst) pw =
          (fun pw : Nat × Nat =>
            if cellAt b pw.1 = Cell.O then 0.3 * (pw.2 : ℚ)
            else if cellAt b pw.1 = Cell.X then -(0.3 * (pw.2 : ℚ))
            else 0) pw := by
      intro pw hpw
      have hgd : POSITION_WEIGHTS.getD pw.1 0 = pw.2 := by
        fin_cases hpw <;> rfl
      dsimp only [Function.comp]
      rw [hgd]
    rw [List.map_congr_left hcongr]
    ring

/-- C6 witness: the formula instantiated on the all-empty board without
position weights, with the length hypothesis discharged concretely. -/
theorem C6_static_evaluation_formula_witness :
    (List.replicate 9 Cell.empty : Board).length = 9 ∧
    evaluate_position false (List.replicate 9 Cell.empty) =
      (WINNING_COMBINATIONS.map (fun c =>
          let line := [cellAt (List.replicate 9 Cell.empty) c.1,
            cellAt (List.replicate 9 Cell.empty) c.2.1,
            cellAt (List.replicate 9 Cell.empty) c.2.2]
          if line.count Cell.O = 2 ∧ line.count Cell.empty = 1 then (5 : ℚ)
          else if line.count Cell.X = 2 ∧ line.count Cell.empty = 1 then -4
          else if line.count Cell.O = 1 ∧ line.count Cell.empty = 2 then 1
          else if line.count Cell.X = 1 ∧ line.count Cell.empty = 2 then -1
          else 0)).sum +
      (if (false : Bool) then
        ((List.range 9).map (fun p =>
          if cellAt (List.replicate 9 Cell.empty) p = Cell.O then
            0.3 * (POSITION_WEIGHTS.getD p 0 : ℚ)
          else if cellAt (List.replicate 9 Cell.empty) p = Cell.X then
            -(0.3 * (POSITION_WEIGHTS.getD p 0 : ℚ))
          else 0)).sum
       else 0) :=
  ⟨rfl, C6_static_evaluation_formula (List.replicate 9 Cell.empty) false rfl⟩

/-! ## Generic lemmas about the search loops -/

section LoopLemmas

variable {α : Type} [LinearOrder α]

lemma plainMaxLoop_ge (fP : Nat → α) :
    ∀ (ms : List Nat) (acc : α), acc ≤ plainMaxLoop fP ms acc := by
  intro ms
  induction ms with
  | nil => intro acc; simp [plainMaxLoop]
  | cons m rest ih =>
    intro acc
    rw [plainMaxLoop]
    exact le_trans (le_max_left acc (fP m)) (ih _)

lemma plainMinLoop_le (fP : Nat → α) :
    ∀ (ms : List Nat) (acc : α), plainMinLoop fP ms acc ≤ acc := by
  intro ms
  induction ms with
  | nil => intro acc; simp [plainMinLoop]
  | cons m rest ih =>
    intro acc
    rw [plainMinLoop]
    exact le_trans (ih _) (min_le_left acc (fP m))

lemma plainMaxLoop_max (fP : Nat → α) :
    ∀ (ms : List Nat) (a c : α),
      plainMaxLoop fP ms (max a c) = max a (plainMaxLoop fP ms c) := by
  intro ms
  induction ms with
  | nil => intro a c; simp [plainMaxLoop]
  | cons m rest ih =>
    intro a c
    rw [plainMaxLoop, plainMaxLoop, max_assoc, ih]

lemma plainMinLoop_min (fP : Nat → α) :
    ∀ (ms : List Nat) (a c : α),
      plainMinLoop fP ms (min a c) = min a (plainMinLoop fP ms c) := by
  intro ms
  induction ms with
  | nil => intro a c; simp [plainMinLoop]
  | cons m rest ih =>
    intro a c
    rw [plainMinLoop, plainMinLoop, min_assoc, ih]

lemma abMaxLoop_ge (f : Nat → α → α → α) :
    ∀ (ms : List Nat) (alpha beta acc : α), acc ≤ abMaxLoop f ms alpha beta acc := by
  intro ms
  induction ms with
  | nil => intro alpha beta acc; simp [abMaxLoop]
  | cons m rest ih =>
    intro alpha beta acc
    rw [abMaxLoop]
    split_ifs with hcut
    · exact le_max_left _ _
    · exact le_trans (le_max_left acc (f m alpha beta)) (ih _ _ _)

lemma abMinLoop_le (f : Nat → α → α → α) :
    ∀ (ms : List Nat) (alpha beta acc : α), abMinLoop f ms alpha beta acc ≤ acc := by
  intro ms
  induction ms with
  | nil => intro alpha beta acc; simp [abMinLoop]
  | cons m rest ih =>
    intro alpha beta acc
    rw [abMinLoop]
    split_ifs with hcut
    · exact min_le_left _ _
    · exact le_trans (ih _ _ _) (min_le_left acc (f m alpha beta))

/-- Fail-soft correctness of the pruned maximizing loop relative to the
unpruned one, in the style of the Knuth-Moore bounds: below alpha the result
is an upper bound on the true value, above beta a lower bound, and inside the
open window it is exact. -/
lemma abMaxLoop_correct (f : Nat → α → α → α) (fP : Nat → α) :
    ∀ ms : List Nat,
      (∀ m ∈ ms, ∀ a bt : α, a < bt →
        ((f m a bt ≤ a → fP m ≤ f m a bt) ∧
         (a < f m a bt → f m a bt < bt → f m a bt = fP m) ∧
         (bt ≤ f m a bt → f m a bt ≤ fP m))) →
      ∀ alpha beta acc : α, alpha < beta → acc ≤ alpha →
        ((abMaxLoop f ms alpha beta acc ≤ alpha →
            plainMaxLoop fP ms acc ≤ abMaxLoop f ms alpha beta acc) ∧
         (alpha < abMaxLoop f ms alpha beta acc →
            abMaxLoop f ms alpha beta acc < beta →
            abMaxLoop f ms alpha beta acc = plainMaxLoop fP ms acc) ∧
         (beta ≤ abMaxLoop f ms alpha beta acc →
            abMaxLoop f ms alpha beta acc ≤ plainMaxLoop fP ms acc)) := by
  intro ms
  induction ms with
  | nil =>
    intro _ alpha beta acc hab hacc
    rw [abMaxLoop, plainMaxLoop]
    exact ⟨fun _ => le_rfl, fun h1 _ => absurd h1 (not_lt.2 hacc), fun _ => le_rfl⟩
  | cons m rest ih =>
    intro hf alpha beta acc hab hacc
    obtain ⟨c1, c2, c3⟩ := hf m (List.mem_cons_self m rest) alpha beta hab
    have hfrest : ∀ m2 ∈ rest, ∀ a bt : α, a < bt →
        ((f m2 a bt ≤ a → fP m2 ≤ f m2 a bt) ∧
         (a < f m2 a bt → f m2 a bt < bt → f m2 a bt = fP m2) ∧
         (bt ≤ f m2 a bt → f m2 a bt ≤ fP m2)) :=
      fun m2 hm2 => hf m2 (List.mem_cons_of_mem m hm2)
    rw [abMaxLoop, plainMaxLoop]
    split_ifs with hcut
    · -- cut-off: beta ≤ max alpha (f m alpha beta)
      have hbs : beta ≤ f m alpha beta := by
        by_contra hcon
        push_neg at hcon
        exact absurd hcut (not_le.2 (max_lt hab hcon))
      have hssP : f m alpha beta ≤ fP m := c3 hbs
      have hroot : max acc (f m alpha beta) = f m alpha beta :=
        max_eq_right (le_trans hacc (le_of_lt (lt_of_lt_of_le hab hbs)))
      rw [hroot]
      refine ⟨?_, ?_, ?_⟩
      · intro hra
        exact absurd (lt_of_lt_of_le hab hbs) (not_lt.2 hra)
      · intro _ hrb
        exact absurd (lt_of_le_of_lt hbs hrb) (lt_irrefl beta)
      · intro _
        calc f m alpha beta ≤ fP m := hssP
          _ ≤ max acc (fP m) := le_max_right _ _
          _ ≤ plainMaxLoop fP rest (max acc (fP m)) := plainMaxLoop_ge _ _ _
    · -- no cut-off: max alpha (f m alpha beta) < beta
      have hab2 : max alpha (f m alpha beta) < beta := not_le.1 hcut
      have hacc2 : max acc (f m alpha beta) ≤ max alpha (f m alpha beta) :=
        max_le_max hacc le_rfl
      obtain ⟨a2, b2, c2x⟩ := ih hfrest (max alpha (f m alpha beta)) beta
        (max acc (f m alpha beta)) hab2 hacc2
      have hvrep : plainMaxLoop fP rest (max acc (fP m)) =
          max (fP m) (plainMaxLoop fP rest acc) := by
        rw [max_comm acc (fP m), plainMaxLoop_max]
      have hv2rep : plainMaxLoop fP rest (max acc (f m alpha beta)) =
          max (f m alpha beta) (plainMaxLoop fP rest acc) := by
        rw [max_comm acc (f m alpha beta), plainMaxLoop_max]
      rcases le_or_lt (f m alpha beta) alpha with hsle | hslt
      · -- the child fails low: its plain value can only be smaller
        have halpha2 : max alpha (f m alpha beta) = alpha := max_eq_left hsle
        rw [halpha2] at a2 b2 c2x
        rw [halpha2]
        have hsPle : fP m ≤ f m alpha beta := c1 hsle
        refine ⟨?_, ?_, ?_⟩
        · intro hra
          calc plainMaxLoop fP rest (max acc (fP m))
              = max (fP m) (plainMaxLoop fP rest acc) := hvrep
            _ ≤ max (f m alpha beta) (plainMaxLoop fP rest acc) :=
                max_le_max hsPle le_rfl
            _ = plainMaxLoop fP rest (max acc (f m alpha beta)) := hv2rep.symm
            _ ≤ abMaxLoop f rest alpha beta (max acc (f m alpha beta)) := a2 hra
        · intro h1 h2
          have hr := b2 h1 h2
          rw [hv2rep] at hr
          have hwr : max (f m alpha beta) (plainMaxLoop fP rest acc) =
              plainMaxLoop fP rest acc := by
            rcases max_choice (f m alpha beta) (plainMaxLoop fP rest acc) with hch | hch
            · rw [hch] at hr
              have hle2 : abMaxLoop f rest alpha beta (max acc (f m alpha beta)) ≤ alpha := by
                rw [hr]
                exact hsle
              exact absurd h1 (not_lt.2 hle2)
            · exact hch
          rw [hwr] at hr
          have hsPlt : fP m < plainMaxLoop fP rest acc :=
            lt_of_le_of_lt (le_trans hsPle hsle) (lt_of_lt_of_le h1 (le_of_eq hr))
          rw [hvrep, max_eq_right (le_of_lt hsPlt)]
          exact hr
        · intro hbr
          have hr := c2x hbr
          rw [hv2rep] at hr
          have hwr : abMaxLoop f rest alpha beta (max acc (f m alpha beta)) ≤
              plainMaxLoop fP rest acc := by
            rcases max_choice (f m alpha beta) (plainMaxLoop fP rest acc) with hch | hch
            · rw [hch] at hr
              exact absurd (lt_of_lt_of_le hab hbr)
                (not_lt.2 (le_trans hr hsle))
            · exact hch ▸ hr
          rw [hvrep]
          exact le_trans hwr (le_max_right _ _)
      · -- the child scores inside the window: its value is exact
        have halpha2 : max alpha (f m alpha beta) = f m alpha beta :=
          max_eq_right (le_of_lt hslt)
        have hsbeta : f m alpha beta < beta := by
          rw [halpha2] at hab2
          exact hab2
        have hsp : f m alpha beta = fP m := c2 hslt hsbeta
        have hveq : plainMaxLoop fP rest (max acc (fP m)) =
            plainMaxLoop fP rest (max acc (f m alpha beta)) := by
          rw [hsp]
        rw [halpha2] at a2 b2 c2x
        rw [halpha2]
        have hge : max acc (f m alpha beta) ≤ abMaxLoop f rest
            (f m alpha beta) beta (max acc (f m alpha beta)) :=
          abMaxLoop_ge _ _ _ _ _
        have hsr : f m alpha beta ≤ abMaxLoop f rest
            (f m alpha beta) beta (max acc (f m alpha beta)) :=
          le_trans (le_max_right acc _) hge
        refine ⟨?_, ?_, ?_⟩
        · intro hra
          exact absurd (lt_of_lt_of_le hslt (le_trans hsr hra)) (lt_irrefl alpha)
        · intro h1 h2
          rw [hveq]
          rcases lt_or_le (f m alpha beta)
            (abMaxLoop f rest (f m alpha beta) beta
              (max acc (f m alpha beta))) with hcase | hcase
          · exact b2 hcase h2
          · have hle := a2 hcase
            have hgeP : max acc (f m alpha beta) ≤
                plainMaxLoop fP rest (max acc (f m alpha beta)) :=
              plainMaxLoop_ge _ _ _
            have hsrP : f m alpha beta ≤
                plainMaxLoop fP rest (max acc (f m alpha beta)) :=
              le_trans (le_max_right acc _) hgeP
            exact le_antisymm (le_trans hcase hsrP) hle
        · intro hbr
          rw [hveq]
          exact c2x hbr

/-- Fail-soft correctness of the pruned minimizing loop relative to the
unpruned one (dual of the maximizing version). -/
lemma abMinLoop_correct (f : Nat → α → α → α) (fP : Nat → α) :
    ∀ ms : List Nat,
      (∀ m ∈ ms, ∀ a bt : α, a < bt →
        ((f m a bt ≤ a → fP m ≤ f m a bt) ∧
         (a < f m a bt → f m a bt < bt → f m a bt = fP m) ∧
         (bt ≤ f m a bt → f m a bt ≤ fP m))) →
      ∀ alpha beta acc : α, alpha < beta → beta ≤ acc →
        ((abMinLoop f ms alpha beta acc ≤ alpha →
            plainMinLoop fP ms acc ≤ abMinLoop f ms alpha beta acc) ∧
         (alpha < abMinLoop f ms alpha beta acc →
            abMinLoop f ms alpha beta acc < beta →
            abMinLoop f ms alpha beta acc = plainMinLoop fP ms acc) ∧
         (beta ≤ abMinLoop f ms alpha beta acc →
            abMinLoop f ms alpha beta acc ≤ plainMinLoop fP ms acc)) := by
  intro ms
  induction ms with
  | nil =>
    intro _ alpha beta acc hab hacc
    rw [abMinLoop, plainMinLoop]
    exact ⟨fun _ => le_rfl,
      fun _ h2 => absurd h2 (not_lt.2 hacc), fun _ => le_rfl⟩
  | cons m rest ih =>
    intro hf alpha beta acc hab hacc
    obtain ⟨c1, c2, c3⟩ := hf m (List.mem_cons_self m rest) alpha beta hab
    have hfrest : ∀ m2 ∈ rest, ∀ a bt : α, a < bt →
        ((f m2 a bt ≤ a → fP m2 ≤ f m2 a bt) ∧
         (a < f m2 a bt → f m2 a bt < bt → f m2 a bt = fP m2) ∧
         (bt ≤ f m2 a bt → f m2 a bt ≤ fP m2)) :=
      fun m2 hm2 => hf m2 (List.mem_cons_of_mem m hm2)
    rw [abMinLoop, plainMinLoop]
    split_ifs with hcut
    · -- cut-off: min beta (f m alpha beta) ≤ alpha
      have hbs : f m alpha beta ≤ alpha := by
        by_contra hcon
        push_neg at hcon
        exact absurd hcut (not_le.2 (lt_min hab hcon))
      have hssP : fP m ≤ f m alpha beta := c1 hbs
      have hroot : min acc (f m alpha beta) = f m alpha beta :=
        min_eq_right (le_trans (le_of_lt (lt_of_le_of_lt hbs hab)) hacc)
      rw [hroot]
      refine ⟨?_, ?_, ?_⟩
      · intro _
        calc plainMinLoop fP rest (min acc (fP m))
            ≤ min acc (fP m) := plainMinLoop_le _ _ _
          _ ≤ fP m := min_le_right _ _
          _ ≤ f m alpha beta := hssP
      · intro h1 _
        exact absurd (lt_of_lt_of_le h1 hbs) (lt_irrefl alpha)
      · intro hrb
        exact absurd (lt_of_le_of_lt (le_trans hrb hbs) hab) (lt_irrefl beta)
    · -- no cut-off: alpha < min beta (f m alpha beta)
      have hab2 : alpha < min beta (f m alpha beta) := not_le.1 hcut
      have hacc2 : min beta (f m alpha beta) ≤ min acc (f m alpha beta) :=
        min_le_min hacc le_rfl
      obtain ⟨a2, b2, c2x⟩ := ih hfrest alpha (min beta (f m alpha beta))
        (min acc (f m alpha beta)) hab2 hacc2
      have hvrep : plainMinLoop fP rest (min acc (fP m)) =
          min (fP m) (plainMinLoop fP rest acc) := by
        rw [min_comm acc (fP m), plainMinLoop_min]
      have hv2rep : plainMinLoop fP rest (min acc (f m alpha beta)) =
          min (f m alpha beta) (plainMinLoop fP rest acc) := by
        rw [min_comm acc (f m alpha beta), plainMinLoop_min]
      rcases le_or_lt beta (f m alpha beta) with hsge | hslt
      · -- the child fails high: its plain value can only be larger
        have hbeta2 : min beta (f m alpha beta) = beta := min_eq_left hsge
        rw [hbeta2] at a2 b2 c2x
        rw [hbeta2]
        have hsPge : f m alpha beta ≤ fP m := c3 hsge
        refine ⟨?_, ?_, ?_⟩
        · intro hra
          have hv2 := a2 hra
          rw [hv2rep] at hv2
          have hwr : min (f m alpha beta) (plainMinLoop fP rest acc) =
              plainMinLoop fP rest acc := by
            rcases min_choice (f m alpha beta) (plainMinLoop fP rest acc) with hch | hch
            · rw [hch] at hv2
              exact absurd (le_trans (le_trans hsge hv2) hra) (not_le.2 hab)
            · exact hch
          rw [hwr] at hv2
          rw [hvrep]
          exact le_trans (min_le_right _ _) hv2
        · intro h1 h2
          have hr := b2 h1 h2
          rw [hv2rep] at hr
          have hwr : min (f m alpha beta) (plainMinLoop fP rest acc) =
              plainMinLoop fP rest acc := by
            rcases min_choice (f m alpha beta) (plainMinLoop fP rest acc) with hch | hch
            · rw [hch] at hr
              have hge2 : beta ≤ abMinLoop f rest alpha beta
                  (min acc (f m alpha beta)) := by
                rw [hr]
                exact hsge
              exact absurd h2 (not_lt.2 hge2)
            · exact hch
          rw [hwr] at hr
          have hsPgt : plainMinLoop fP rest acc < fP m :=
            lt_of_lt_of_le (lt_of_le_of_lt (le_of_eq hr.symm) h2)
              (le_trans hsge hsPge)
          rw [hvrep, min_eq_right (le_of_lt hsPgt)]
          exact hr
        · intro hbr
          have hr := c2x hbr
          rw [hv2rep] at hr
          rw [hvrep]
          calc abMinLoop f rest alpha beta (min acc (f m alpha beta))
              ≤ min (f m alpha beta) (plainMinLoop fP rest acc) := hr
            _ ≤ min (fP m) (plainMinLoop fP rest acc) :=
                min_le_min hsPge le_rfl
      · -- the child scores inside the window: its value is exact
        have hbeta2 : min beta (f m alpha beta) = f m alpha beta :=
          min_eq_right (le_of_lt hslt)
        have hsalpha : alpha < f m alpha beta := by
          rw [hbeta2] at hab2
          exact hab2
        have hsp : f m alpha beta = fP m := c2 hsalpha hslt
        have hveq : plainMinLoop fP rest (min acc (fP m)) =
            plainMinLoop fP rest (min acc (f m alpha beta)) := by
          rw [hsp]
        rw [hbeta2] at a2 b2 c2x
        rw [hbeta2]
        have hle : abMinLoop f rest alpha (f m alpha beta)
            (min acc (f m alpha beta)) ≤ min acc (f m alpha beta) :=
          abMinLoop_le _ _ _ _ _
        have hsr : abMinLoop f rest alpha (f m alpha beta)
            (min acc (f m alpha beta)) ≤ f m alpha beta :=
          le_trans hle (min_le_right acc _)
        refine ⟨?_, ?_, ?_⟩
        · intro hra
          rw [hveq]
          exact a2 hra
        · intro h1 h2
          rw [hveq]
          rcases lt_or_le (abMinLoop f rest alpha (f m alpha beta)
              (min acc (f m alpha beta))) (f m alpha beta) with hcase | hcase
          · exact b2 h1 hcase
          · have hge := c2x hcase
            have hleP : plainMinLoop fP rest (min acc (f m alpha beta)) ≤
                min acc (f m alpha beta) :=
              plainMinLoop_le _ _ _
            have hsrP : plainMinLoop fP rest (min acc (f m alpha beta)) ≤
                f m alpha beta :=
              le_trans hleP (min_le_right acc _)
            exact le_antisymm hge (le_trans hsrP hcase)
        · intro hbr
          exact absurd (lt_of_le_of_lt (le_trans hbr hsr) hslt) (lt_irrefl beta)

end LoopLemmas

/-! ## Claim C4: pruning never changes the minimax value -/

lemma minimax_ab_bounds (useW : Bool) :
    ∀ (d : Nat) (g : Board) (mx : Bool) (alpha beta : Score), alpha < beta →
      ((minimax useW d g alpha beta mx ≤ alpha →
          plainMinimax useW d g mx ≤ minimax useW d g alpha beta mx) ∧
       (alpha < minimax useW d g alpha beta mx →
          minimax useW d g alpha beta mx < beta →
          minimax useW d g alpha beta mx = plainMinimax useW d g mx) ∧
       (beta ≤ minimax useW d g alpha beta mx →
          minimax useW d g alpha beta mx ≤ plainMinimax useW d g mx)) := by
  intro d
  induction d with
  | zero =>
    intro g mx alpha beta hab
    rcases hcw : check_winner g with ⟨ov, w⟩
    cases ov with
    | false =>
      rw [minimax_horizon hcw, plainMinimax_horizon hcw]
      exact ⟨fun _ => le_rfl, fun _ _ => rfl, fun _ => le_rfl⟩
    | true =>
      rw [minimax_terminal hcw, plainMinimax_terminal hcw]
      exact ⟨fun _ => le_rfl, fun _ _ => rfl, fun _ => le_rfl⟩
  | succ d ihd =>
    intro g mx alpha beta hab
    rcases hcw : check_winner g with ⟨ov, w⟩
    cases ov with
    | true =>
      rw [minimax_terminal hcw, plainMinimax_terminal hcw]
      exact ⟨fun _ => le_rfl, fun _ _ => rfl, fun _ => le_rfl⟩
    | false =>
      cases mx with
      | true =>
        rw [minimax_step_max hcw, plainMinimax_step_max hcw]
        exact abMaxLoop_correct _ _ (get_valid_moves g)
          (fun m _ a bt habt => ihd (childBoard g m Cell.O) false a bt habt)
          alpha beta ⊥ hab bot_le
      | false =>
        rw [minimax_step_min hcw, plainMinimax_step_min hcw]
        exact abMinLoop_correct _ _ (get_valid_moves g)
          (fun m _ a bt habt => ihd (childBoard g m Cell.X) true a bt habt)
          alpha beta ⊤ hab le_top

lemma minimax_full_window_eq_plain (useW : Bool) (d : Nat) (g : Board) (mx : Bool) :
    minimax useW d g ⊥ ⊤ mx = plainMinimax useW d g mx := by
  obtain ⟨a1, b1, c1⟩ := minimax_ab_bounds useW d g mx ⊥ ⊤ bot_lt_top
  rcases le_or_lt (minimax useW d g ⊥ ⊤ mx) ⊥ with h | h
  · have hr : minimax useW d g ⊥ ⊤ mx = ⊥ := le_bot_iff.1 h
    have hv := a1 h
    rw [hr] at hv
    rw [hr, le_bot_iff.1 hv]
  · rcases lt_or_le (minimax useW d g ⊥ ⊤ mx) ⊤ with h2 | h2
    · exact b1 h h2
    · have hr : minimax useW d g ⊥ ⊤ mx = ⊤ := top_le_iff.1 h2
      have hv := c1 h2
      rw [hr] at hv
      rw [hr, top_le_iff.1 hv]

/-- C4: at the full window (alpha = -inf, beta = +inf), the alpha-beta-pruned
minimax returns exactly the value of the identical recursion with the
`beta <= alpha` cut-off removed, for every board, depth, heuristic flag and
maximizing flag: pruning changes only which nodes are visited, never the
score. -/
theorem C4_pruning_preserves_score :
    ∀ (useW : Bool) (d : Nat) (b : Board) (mx : Bool), b.length = 9 →
      minimax useW d b ⊥ ⊤ mx = plainMinimax useW d b mx :=
  fun useW d b mx _ => minimax_full_window_eq_plain useW d b mx

/-- C4 witness: the equivalence instantiated on a concrete board at Hard
depth, with the length hypothesis discharged concretely. -/
theorem C4_pruning_preserves_score_witness :
    ([Cell.O, Cell.O, Cell.empty, Cell.X, Cell.X, Cell.empty, Cell.empty,
        Cell.empty, Cell.empty] : Board).length = 9 ∧
    minimax true 9 [Cell.O, Cell.O, Cell.empty, Cell.X, Cell.X, Cell.empty,
        Cell.empty, Cell.empty, Cell.empty] ⊥ ⊤ true =
      plainMinimax true 9 [Cell.O, Cell.O, Cell.empty, Cell.X, Cell.X,
        Cell.empty, Cell.empty, Cell.empty, Cell.empty] true :=
  ⟨rfl, C4_pruning_preserves_score true 9
    [Cell.O, Cell.O, Cell.empty, Cell.X, Cell.X, Cell.empty, Cell.empty,
      Cell.empty, Cell.empty] true rfl⟩

/-! ## Finiteness of minimax scores -/

lemma check_winner_false_mem_empty {g : Board} {w : Option Cell}
    (h : check_winner g = (false, w)) : Cell.empty ∈ g := by
  unfold check_winner at h
  cases hw : winnerLoop g WINNING_COMBINATIONS with
  | some w0 => rw [hw] at h; simp at h
  | none =>
    rw [hw] at h
    by_cases hmem : Cell.empty ∈ g
    · exact hmem
    · rw [if_neg hmem] at h
      simp at h

section MoreLoopLemmas

variable {α : Type} [LinearOrder α]

lemma plainMaxLoop_ge_elem (f : Nat → α) :
    ∀ (ms : List Nat) (acc : α) (m : Nat), m ∈ ms → f m ≤ plainMaxLoop f ms acc := by
  intro ms
  induction ms with
  | nil => intro acc m hm; exact absurd hm (List.not_mem_nil m)
  | cons m0 rest ih =>
    intro acc m hm
    rw [plainMaxLoop]
    rcases List.mem_cons.1 hm with rfl | hmem
    · exact le_trans (le_max_right acc (f m)) (plainMaxLoop_ge f rest _)
    · exact ih _ m hmem

lemma plainMinLoop_le_elem (f : Nat → α) :
    ∀ (ms : List Nat) (acc : α) (m : Nat), m ∈ ms → plainMinLoop f ms acc ≤ f m := by
  intro ms
  induction ms with
  | nil => intro acc m hm; exact absurd hm (List.not_mem_nil m)
  | cons m0 rest ih =>
    intro acc m hm
    rw [plainMinLoop]
    rcases List.mem_cons.1 hm with rfl | hmem
    · exact le_trans (plainMinLoop_le f rest _) (min_le_right acc (f m))
    · exact ih _ m hmem

lemma plainMaxLoop_attained (f : Nat → α) :
    ∀ (ms : List Nat) (acc : α),
      plainMaxLoop f ms acc = acc ∨ ∃ m ∈ ms, plainMaxLoop f ms acc = f m := by
  intro ms
  induction ms with
  | nil => intro acc; left; rfl
  | cons m0 rest ih =>
    intro acc
    rw [plainMaxLoop]
    rcases ih (max acc (f m0)) with h | ⟨m, hm, hv⟩
    · rcases max_choice acc (f m0) with hc | hc
      · left; rw [h, hc]
      · right; exact ⟨m0, List.mem_cons_self m0 rest, by rw [h, hc]⟩
    · right; exact ⟨m, List.mem_cons_of_mem _ hm, hv⟩

lemma plainMinLoop_attained (f : Nat → α) :
    ∀ (ms : List Nat) (acc : α),
      plainMinLoop f ms acc = acc ∨ ∃ m ∈ ms, plainMinLoop f ms acc = f m := by
  intro ms
  induction ms with
  | nil => intro acc; left; rfl
  | cons m0 rest ih =>
    intro acc
    rw [plainMinLoop]
    rcases ih (min acc (f m0)) with h | ⟨m, hm, hv⟩
    · rcases min_choice acc (f m0) with hc | hc
      · left; rw [h, hc]
      · right; exact ⟨m0, List.mem_cons_self m0 rest, by rw [h, hc]⟩
    · right; exact ⟨m, List.mem_cons_of_mem _ hm, hv⟩

end MoreLoopLemmas

lemma exists_toScore_plainMinimax (useW : Bool) :
    ∀ (d : Nat) (g : Board) (mx : Bool),
      ∃ q : ℚ, plainMinimax useW d g mx = toScore q := by
  intro d
  induction d with
  | zero =>
    intro g mx
    rcases hcw : check_winner g with ⟨ov, w⟩
    cases ov with
    | false => exact ⟨_, plainMinimax_horizon hcw⟩
    | true =>
      rw [plainMinimax_terminal hcw]
      split_ifs with h1 h2
      · exact ⟨_, rfl⟩
      · exact ⟨_, rfl⟩
      · exact ⟨_, rfl⟩
  | succ d ihd =>
    intro g mx
    rcases hcw : check_winner g with ⟨ov, w⟩
    cases ov with
    | true =>
      rw [plainMinimax_terminal hcw]
      split_ifs with h1 h2
      · exact ⟨_, rfl⟩
      · exact ⟨_, rfl⟩
      · exact ⟨_, rfl⟩
    | false =>
      have hvm : get_valid_moves g ≠ [] :=
        get_valid_moves_ne_nil_of_mem_empty (check_winner_false_mem_empty hcw)
      obtain ⟨m0, hm0⟩ := List.exists_mem_of_ne_nil _ hvm
      cases mx with
      | true =>
        rw [plainMinimax_step_max hcw]
        rcases plainMaxLoop_attained
            (fun m => plainMinimax useW d (childBoard g m Cell.O) false)
            (get_valid_moves g) ⊥ with hbot | ⟨m, hm, hv⟩
        · exfalso
          obtain ⟨q0, hq0⟩ := ihd (childBoard g m0 Cell.O) false
          have hge := plainMaxLoop_ge_elem
            (fun m => plainMinimax useW d (childBoard g m Cell.O) false)
            (get_valid_moves g) ⊥ m0 hm0
          simp only [hbot, hq0] at hge
          exact absurd hge (not_le.2 (bot_lt_toScore q0))
        · obtain ⟨q, hq⟩ := ihd (childBoard g m Cell.O) false
          exact ⟨q, by rw [hv, hq]⟩
      | false =>
        rw [plainMinimax_step_min hcw]
        rcases plainMinLoop_attained
            (fun m => plainMinimax useW d (childBoard g m Cell.X) true)
            (get_valid_moves g) ⊤ with htop | ⟨m, hm, hv⟩
        · exfalso
          obtain ⟨q0, hq0⟩ := ihd (childBoard g m0 Cell.X) true
          have hle := plainMinLoop_le_elem
            (fun m => plainMinimax useW d (childBoard g m Cell.X) true)
            (get_valid_moves g) ⊤ m0 hm0
          simp only [htop, hq0] at hle
          exact absurd hle (not_le.2 (toScore_lt_top q0))
        · obtain ⟨q, hq⟩ := ihd (childBoard g m Cell.X) true
          exact ⟨q, by rw [hv, hq]⟩

lemma candidateScore_finite (useW : Bool) (maxd : Nat) (g : Board) (m : Nat) :
    ∃ q : ℚ, candidateScore useW maxd g m = toScore q := by
  unfold candidateScore
  obtain ⟨q, hq⟩ := exists_toScore_plainMinimax useW maxd (childBoard g m Cell.O) false
  rw [minimax_full_window_eq_plain, hq]
  cases useW with
  | false => exact ⟨q, rfl⟩
  | true =>
    refine ⟨q + (POSITION_WEIGHTS.getD m 0 : ℚ) * 0.1, ?_⟩
    rw [if_pos rfl, toScore_add]

/-! ## Claim C7: selected moves are valid, none only on a full board -/

lemma bestLoop_subset (f : Nat → Score) :
    ∀ (ms : List Nat) (bs : Score) (bm : List Nat),
      ∀ x ∈ (bestLoop f ms bs bm).2, x ∈ bm ∨ x ∈ ms := by
  intro ms
  induction ms with
  | nil => intro bs bm x hx; exact Or.inl hx
  | cons m rest ih =>
    intro bs bm x hx
    rw [bestLoop] at hx
    split_ifs at hx with h1 h2
    · rcases ih (f m) [m] x hx with hq | hq
      · rcases List.mem_singleton.1 hq with rfl
        exact Or.inr (List.mem_cons_self x rest)
      · exact Or.inr (List.mem_cons_of_mem m hq)
    · rcases ih bs (bm ++ [m]) x hx with hq | hq
      · rcases List.mem_append.1 hq with hq2 | hq2
        · exact Or.inl hq2
        · rcases List.mem_singleton.1 hq2 with rfl
          exact Or.inr (List.mem_cons_self x rest)
      · exact Or.inr (List.mem_cons_of_mem m hq)
    · rcases ih bs bm x hx with hq | hq
      · exact Or.inl hq
      · exact Or.inr (List.mem_cons_of_mem m hq)

lemma bestLoop_ne_nil (f : Nat → Score) :
    ∀ (ms : List Nat) (bs : Score) (bm : List Nat),
      bm ≠ [] → (bestLoop f ms bs bm).2 ≠ [] := by
  intro ms
  induction ms with
  | nil => intro bs bm h; exact h
  | cons m rest ih =>
    intro bs bm h
    rw [bestLoop]
    split_ifs with h1 h2
    · exact ih (f m) [m] (by simp)
    · exact ih bs (bm ++ [m]) (by simp)
    · exact ih bs bm h

lemma bestLoop_cons_ne_nil (f : Nat → Score) {m : Nat} (rest : List Nat)
    {bs : Score} (bm : List Nat) (h : bs < f m) :
    (bestLoop f (m :: rest) bs bm).2 ≠ [] := by
  rw [bestLoop]
  rw [if_pos h]
  exact bestLoop_ne_nil f rest (f m) [m] (by simp)

lemma getD_mod_mem {l : List Nat} (h : l ≠ []) (i : Nat) :
    l.getD (i % l.length) 0 ∈ l := by
  have hlen : 0 < l.length := List.length_pos.2 h
  have hlt : i % l.length < l.length := Nat.mod_lt _ hlen
  rw [List.getD_eq_getElem?_getD, List.getElem?_eq_getElem hlt, Option.getD_some]
  exact List.getElem_mem hlt

lemma get_valid_moves_nil_iff {b : Board} :
    get_valid_moves b = [] ↔ Cell.empty ∉ b := by
  constructor
  · intro hnil hmem
    exact get_valid_moves_ne_nil_of_mem_empty hmem hnil
  · intro hnot
    by_contra hne
    obtain ⟨m, hm⟩ := List.exists_mem_of_ne_nil _ hne
    obtain ⟨hlt, hcell⟩ := mem_get_valid_moves.1 hm
    apply hnot
    have : b.getD m Cell.empty = Cell.empty := hcell
    rw [List.getD_eq_getElem?_getD, List.getElem?_eq_getElem hlt,
      Option.getD_some] at this
    rw [← this]
    exact List.getElem_mem hlt

/-- C7: for every board, difficulty and outcome of the random draws,
`get_ai_move` returns `none` exactly when the board has no empty cell, and
any returned position is a valid move: in range and empty at call time. -/
theorem C7_select_move_none_iff_and_valid :
    ∀ (diff : Difficulty) (b : Board) (r : ℚ) (skipIdx tieIdx : Nat),
      (get_ai_move diff b r skipIdx tieIdx = none ↔ get_valid_moves b = []) ∧
      (get_valid_moves b = [] ↔ Cell.empty ∉ b) ∧
      (∀ p : Nat, get_ai_move diff b r skipIdx tieIdx = some p →
        p ∈ get_valid_moves b ∧ p < b.length ∧ cellAt b p = Cell.empty) := by
  intro diff b r skipIdx tieIdx
  have hdef : get_ai_move diff b r skipIdx tieIdx =
      (if (get_valid_moves b).isEmpty then none
       else if r < randomization diff then
        some ((get_valid_moves b).getD (skipIdx % (get_valid_moves b).length) 0)
       else
        some ((bestLoop (candidateScore (use_position_weights diff) (max_depth diff) b)
            (get_valid_moves b) ⊥ []).2.getD
          (tieIdx % (bestLoop (candidateScore (use_position_weights diff)
            (max_depth diff) b) (get_valid_moves b) ⊥ []).2.length) 0)) := rfl
  refine ⟨?_, get_valid_moves_nil_iff, ?_⟩
  · rw [hdef]
    by_cases hvm : (get_valid_moves b).isEmpty
    · rw [if_pos hvm]
      constructor
      · intro _
        exact List.isEmpty_iff.1 hvm
      · intro _
        rfl
    · rw [if_neg hvm]
      have hne : get_valid_moves b ≠ [] := fun h => hvm (by rw [h]; rfl)
      split_ifs with hr
      · exact ⟨fun h => absurd h (by simp), fun h => absurd h hne⟩
      · exact ⟨fun h => absurd h (by simp), fun h => absurd h hne⟩
  · intro p hp
    rw [hdef] at hp
    by_cases hvm : (get_valid_moves b).isEmpty
    · rw [if_pos hvm] at hp
      exact absurd hp (by simp)
    · rw [if_neg hvm] at hp
      have hne : get_valid_moves b ≠ [] := fun h => hvm (by rw [h]; rfl)
      have hpmem : p ∈ get_valid_moves b := by
        split_ifs at hp with hr
        · rcases Option.some.inj hp with rfl
          exact getD_mod_mem hne skipIdx
        · rcases Option.some.inj hp with rfl
          obtain ⟨m0, rest, hcons⟩ := List.exists_cons_of_ne_nil hne
          have hbm : (bestLoop (candidateScore (use_position_weights diff)
              (max_depth diff) b) (get_valid_moves b) ⊥ []).2 ≠ [] := by
            rw [hcons]
            apply bestLoop_cons_ne_nil
            obtain ⟨q, hq⟩ := candidateScore_finite (use_position_weights diff)
              (max_depth diff) b m0
            rw [hq]
            exact bot_lt_toScore q
          have hmem := getD_mod_mem hbm tieIdx
          rcases bestLoop_subset _ _ _ _ _ hmem with habs | hok
          · exact absurd habs (List.not_mem_nil _)
          · exact hok
      obtain ⟨hlt, hcell⟩ := mem_get_valid_moves.1 hpmem
      exact ⟨hpmem, hlt, hcell⟩

/-- C7 witness: `none` on the concrete full board, and on the empty board at
Easy difficulty with the skip draw below the randomization threshold the
returned move 0 is a valid move. -/
theorem C7_select_move_none_iff_and_valid_witness :
    get_ai_move Difficulty.hard [Cell.X, Cell.O, Cell.X, Cell.O, Cell.X,
      Cell.O, Cell.X, Cell.O, Cell.X] 0 0 0 = none ∧
    (0 ∈ get_valid_moves (List.replicate 9 Cell.empty) ∧
      0 < (List.replicate 9 Cell.empty : Board).length ∧
      cellAt (List.replicate 9 Cell.empty) 0 = Cell.empty) := by
  constructor
  · exact (C7_select_move_none_iff_and_valid Difficulty.hard
      [Cell.X, Cell.O, Cell.X, Cell.O, Cell.X, Cell.O, Cell.X, Cell.O, Cell.X]
      0 0 0).1.2 (by decide)
  · have hsome : get_ai_move Difficulty.easy (List.replicate 9 Cell.empty)
        0 0 0 = some 0 := by
      have hdef : get_ai_move Difficulty.easy (List.replicate 9 Cell.empty) 0 0 0 =
          (if (get_valid_moves (List.replicate 9 Cell.empty)).isEmpty then none
           else if (0 : ℚ) < randomization Difficulty.easy then
            some ((get_valid_moves (List.replicate 9 Cell.empty)).getD
              (0 % (get_valid_moves (List.replicate 9 Cell.empty)).length) 0)
           else
            some ((bestLoop (candidateScore false 2 (List.replicate 9 Cell.empty))
                (get_valid_moves (List.replicate 9 Cell.empty)) ⊥ []).2.getD
              (0 % (bestLoop (candidateScore false 2 (List.replicate 9 Cell.empty))
                (get_valid_moves (List.replicate 9 Cell.empty)) ⊥ []).2.length) 0)) :=
        rfl
      rw [hdef, if_neg (by decide), if_pos]
      · decide
      · show (0 : ℚ) < randomization Difficulty.easy
        rw [show randomization Difficulty.easy = 0.4 from rfl]
        norm_num
    exact (C7_select_move_none_iff_and_valid Difficulty.easy
      (List.replicate 9 Cell.empty) 0 0 0).2.2 0 hsome

/-! ## Claim C10: the search never mutates the caller's board -/

/-- State-threaded call of `get_valid_moves`, a method that only reads
`self.board`: result plus the state of the object after the call. -/
def get_valid_movesSt (b : Board) : List Nat × Board := (get_valid_moves b, b)

/-- State-threaded call of `check_winner`, a method that only reads
`self.board`. -/
def check_winnerSt (b : Board) : (Bool × Option Cell) × Board := (check_winner b, b)

/-- State-threaded `MinimaxAI._minimax`: the pair is (score, state of the
`game` argument object after the call).  Each hypothetical move is applied by
`make_move` to the board of the fresh clone `TicTacToeGame(game.board)` and
the clone's final state is discarded, exactly as in the source; the argument
object itself is only read. -/
def minimaxSt (useW : Bool) (depth : Nat) (g : Board) (alpha beta : Score)
    (mx : Bool) : Score × Board :=
  match depth, check_winnerSt g with
  | d, ((true, winner), g1) =>
    (if winner = some Cell.O then toScore (100 + d)
     else if winner = some Cell.X then toScore (-100 - d)
     else toScore 0, g1)
  | 0, ((false, _), g1) => (toScore (evaluate_position useW g1), g1)
  | d + 1, ((false, _), g1) =>
    let vmSt := get_valid_movesSt g1
    if mx then
      (abMaxLoop (fun m a bt =>
        let clone := vmSt.2
        let step := make_move clone (m : Int) Cell.O
        (minimaxSt useW d step.2 a bt false).1) vmSt.1 alpha beta ⊥, vmSt.2)
    else
      (abMinLoop (fun m a bt =>
        let clone := vmSt.2
        let step := make_move clone (m : Int) Cell.X
        (minimaxSt useW d step.2 a bt true).1) vmSt.1 alpha beta ⊤, vmSt.2)
termination_by depth

/-- State-threaded `MinimaxAI.get_ai_move`: the pair is (result, state of the
`game` argument object after the call). -/
def get_ai_moveSt (diff : Difficulty) (g : Board) (r : ℚ) (skipIdx tieIdx : Nat) :
    Option Nat × Board :=
  let vmSt := get_valid_movesSt g
  if vmSt.1.isEmpty then (none, vmSt.2)
  else if r < randomization diff then
    (some (vmSt.1.getD (skipIdx % vmSt.1.length) 0), vmSt.2)
  else
    let best := bestLoop (fun m =>
        let clone := vmSt.2
        let step := make_move clone (m : Int) Cell.O
        let score := (minimaxSt (use_position_weights diff) (max_depth diff)
          step.2 ⊥ ⊤ false).1
        if use_position_weights diff then
          score + toScore ((POSITION_WEIGHTS.getD m 0 : ℚ) * 0.1)
        else score)
      vmSt.1 ⊥ []
    (some (best.2.getD (tieIdx % best.2.length) 0), vmSt.2)

lemma abMaxLoop_congr {α : Type} [LinearOrder α] {f g : Nat → α → α → α}
    (h : ∀ m a bt, f m a bt = g m a bt) :
    ∀ (ms : List Nat) (al bt acc : α),
      abMaxLoop f ms al bt acc = abMaxLoop g ms al bt acc := by
  intro ms
  induction ms with
  | nil => intro al bt acc; rfl
  | cons m rest ih =>
    intro al bt acc
    rw [abMaxLoop, abMaxLoop, h]
    split_ifs with hcut
    · rfl
    · exact ih _ _ _

lemma abMinLoop_congr {α : Type} [LinearOrder α] {f g : Nat → α → α → α}
    (h : ∀ m a bt, f m a bt = g m a bt) :
    ∀ (ms : List Nat) (al bt acc : α),
      abMinLoop f ms al bt acc = abMinLoop g ms al bt acc := by
  intro ms
  induction ms with
  | nil => intro al bt acc; rfl
  | cons m rest ih =>
    intro al bt acc
    rw [abMinLoop, abMinLoop, h]
    split_ifs with hcut
    · rfl
    · exact ih _ _ _

lemma bestLoop_congr {f g : Nat → Score} (h : ∀ m, f m = g m) :
    ∀ (ms : List Nat) (bs : Score) (bm : List Nat),
      bestLoop f ms bs bm = bestLoop g ms bs bm := by
  intro ms
  induction ms with
  | nil => intro bs bm; rfl
  | cons m rest ih =>
    intro bs bm
    rw [bestLoop, bestLoop, h]
    split_ifs with h1 h2
    · exact ih _ _
    · exact ih _ _
    · exact ih _ _

/-- The score component of the state-threaded minimax agrees with the plain
embedding of `_minimax`. -/
lemma minimaxSt_fst (useW : Bool) :
    ∀ (d : Nat) (g : Board) (al bt : Score) (mx : Bool),
      (minimaxSt useW d g al bt mx).1 = minimax useW d g al bt mx := by
  intro d
  induction d with
  | zero =>
    intro g al bt mx
    rcases hcw : check_winner g with ⟨ov, w⟩
    have hst : check_winnerSt g = ((ov, w), g) := by
      unfold check_winnerSt
      rw [hcw]
    cases ov with
    | true =>
      unfold minimaxSt
      rw [hst, minimax_terminal hcw]
    | false =>
      unfold minimaxSt
      rw [hst, minimax_horizon hcw]
  | succ d2 ih =>
    intro g al bt mx
    rcases hcw : check_winner g with ⟨ov, w⟩
    have hst : check_winnerSt g = ((ov, w), g) := by
      unfold check_winnerSt
      rw [hcw]
    cases ov with
    | true =>
      unfold minimaxSt
      rw [hst, minimax_terminal hcw]
    | false =>
      cases mx with
      | true =>
        unfold minimaxSt
        rw [hst, minimax_step_max hcw]
        dsimp only
        exact abMaxLoop_congr (fun m a bt => ih _ a bt false) _ al bt ⊥
      | false =>
        unfold minimaxSt
        rw [hst, minimax_step_min hcw]
        dsimp only
        exact abMinLoop_congr (fun m a bt => ih _ a bt true) _ al bt ⊤

/-- The result component of the state-threaded move selection agrees with the
plain embedding of `get_ai_move`. -/
lemma get_ai_moveSt_fst (diff : Difficulty) (g : Board) (r : ℚ)
    (skipIdx tieIdx : Nat) :
    (get_ai_moveSt diff g r skipIdx tieIdx).1 = get_ai_move diff g r skipIdx tieIdx := by
  unfold get_ai_moveSt get_ai_move get_valid_movesSt
  dsimp only
  have hcongr : ∀ m : Nat,
      (let clone := g
       let step := make_move clone (m : Int) Cell.O
       let score := (minimaxSt (use_position_weights diff) (max_depth diff)
         step.2 ⊥ ⊤ false).1
       if use_position_weights diff then
         score + toScore ((POSITION_WEIGHTS.getD m 0 : ℚ) * 0.1)
       else score) =
      candidateScore (use_position_weights diff) (max_depth diff) g m := by
    intro m
    unfold candidateScore childBoard
    dsimp only
    rw [minimaxSt_fst]
  rw [bestLoop_congr hcongr]
  split_ifs <;> rfl

/-- C10: for every difficulty, board and outcome of the random draws, the
caller's board after `get_ai_move` is exactly the board before the call, and
likewise the `game` argument of every recursive `_minimax` call is returned
unchanged: hypothetical moves touch only freshly cloned boards. -/
theorem C10_search_never_mutates_caller_board :
    (∀ (diff : Difficulty) (g : Board) (r : ℚ) (skipIdx tieIdx : Nat),
      (get_ai_moveSt diff g r skipIdx tieIdx).2 = g) ∧
    (∀ (useW : Bool) (d : Nat) (g : Board) (al bt : Score) (mx : Bool),
      (minimaxSt useW d g al bt mx).2 = g) := by
  constructor
  · intro diff g r skipIdx tieIdx
    unfold get_ai_moveSt get_valid_movesSt
    dsimp only
    split_ifs <;> rfl
  · intro useW d g al bt mx
    rcases hcw : check_winner g with ⟨ov, w⟩
    have hst : check_winnerSt g = ((ov, w), g) := by
      unfold check_winnerSt
      rw [hcw]
    cases ov with
    | true =>
      unfold minimaxSt
      rw [hst]
      cases d <;> rfl
    | false =>
      cases d with
      | zero =>
        unfold minimaxSt
        rw [hst]
      | succ d2 =>
        unfold minimaxSt
        rw [hst]
        cases mx <;> rfl

/-! ## Claim C1: machinery — empty-cell counting and forced wins -/

/-- Number of empty cells of a board. -/
def countEmpty (b : Board) : Nat := b.count Cell.empty

lemma is_valid_move_of_mem {b : Board} {m : Nat} (hb : b.length = 9)
    (hm : m ∈ get_valid_moves b) {p : Cell} (hp : p = Cell.X ∨ p = Cell.O) :
    is_valid_move b (m : Int) p = true := by
  obtain ⟨hlt, hcell⟩ := mem_get_valid_moves.1 hm
  rw [hb] at hlt
  apply is_valid_move_iff.2
  refine ⟨by omega, by omega, hp, ?_⟩
  rw [Int.toNat_natCast]
  exact hcell

lemma childBoard_eq_set {b : Board} {m : Nat} {p : Cell} (hb : b.length = 9)
    (hm : m ∈ get_valid_moves b) (hp : p = Cell.X ∨ p = Cell.O) :
    childBoard b m p = b.set m p := by
  obtain ⟨hlt, -⟩ := mem_get_valid_moves.1 hm
  unfold childBoard
  rw [make_move_of_valid (is_valid_move_of_mem hb hm hp)
    (by rw [Int.toNat_natCast]; exact hlt)]
  rw [Int.toNat_natCast]

lemma childBoard_length {b : Board} {m : Nat} {p : Cell} (hb : b.length = 9)
    (hm : m ∈ get_valid_moves b) (hp : p = Cell.X ∨ p = Cell.O) :
    (childBoard b m p).length = 9 := by
  rw [childBoard_eq_set hb hm hp, List.length_set]
  exact hb

lemma countEmpty_pos {b : Board} {m : Nat} (hm : m ∈ get_valid_moves b) :
    1 ≤ countEmpty b := by
  obtain ⟨hlt, hcell⟩ := mem_get_valid_moves.1 hm
  have hmem : Cell.empty ∈ b := by
    have hc : b.getD m Cell.empty = Cell.empty := hcell
    rw [List.getD_eq_getElem?_getD, List.getElem?_eq_getElem hlt,
      Option.getD_some] at hc
    rw [← hc]
    exact List.getElem_mem hlt
  exact Nat.succ_le_of_lt (List.count_pos_iff.2 hmem)

lemma countEmpty_le {b : Board} : countEmpty b ≤ b.length := by
  unfold countEmpty
  exact List.count_le_length _ _

lemma countEmpty_childBoard {b : Board} {m : Nat} {p : Cell} (hb : b.length = 9)
    (hm : m ∈ get_valid_moves b) (hp : p = Cell.X ∨ p = Cell.O) :
    countEmpty (childBoard b m p) = countEmpty b - 1 := by
  obtain ⟨hlt, hcell⟩ := mem_get_valid_moves.1 hm
  have hc : b[m] = Cell.empty := by
    have hc0 : b.getD m Cell.empty = Cell.empty := hcell
    rwa [List.getD_eq_getElem?_getD, List.getElem?_eq_getElem hlt,
      Option.getD_some] at hc0
  rw [childBoard_eq_set hb hm hp]
  unfold countEmpty
  rw [List.count_set p Cell.empty b m hlt, hc]
  rcases hp with rfl | rfl <;> simp

/-- Specification-side notion for claim C1: the human player X can force a win
from the position `g` (with `xTurn` telling whose turn it is), by the usual
game-theoretic recursion over the remaining moves.  `fuel` bounds the
recursion depth; it is always instantiated with the number of empty cells. -/
def xForcesWin (fuel : Nat) (g : Board) (xTurn : Bool) : Bool :=
  match fuel, check_winner g with
  | _, (true, w) => w == some Cell.X
  | 0, (false, _) => false
  | f + 1, (false, _) =>
    if xTurn then
      (get_valid_moves g).any (fun m => xForcesWin f (childBoard g m Cell.X) false)
    else
      (get_valid_moves g).all (fun m => xForcesWin f (childBoard g m Cell.O) true)
termination_by fuel

lemma xForcesWin_terminal {f : Nat} {g : Board} {t : Bool} {w : Option Cell}
    (h : check_winner g = (true, w)) :
    xForcesWin f g t = (w == some Cell.X) := by
  unfold xForcesWin
  rw [h]
  cases f <;> rfl

lemma xForcesWin_stepX {f : Nat} {g : Board} {w : Option Cell}
    (h : check_winner g = (false, w)) :
    xForcesWin (f + 1) g true =
      (get_valid_moves g).any (fun m => xForcesWin f (childBoard g m Cell.X) false) := by
  conv_lhs => unfold xForcesWin
  rw [h]
  rfl

lemma xForcesWin_stepO {f : Nat} {g : Board} {w : Option Cell}
    (h : check_winner g = (false, w)) :
    xForcesWin (f + 1) g false =
      (get_valid_moves g).all (fun m => xForcesWin f (childBoard g m Cell.O) true) := by
  conv_lhs => unfold xForcesWin
  rw [h]
  rfl

section LtIffLemmas

variable {α : Type} [LinearOrder α]

lemma plainMaxLoop_lt_iff (f : Nat → α) :
    ∀ (ms : List Nat) (acc c : α),
      plainMaxLoop f ms acc < c ↔ acc < c ∧ ∀ m ∈ ms, f m < c := by
  intro ms
  induction ms with
  | nil =>
    intro acc c
    rw [plainMaxLoop]
    simp
  | cons m rest ih =>
    intro acc c
    rw [plainMaxLoop, ih, max_lt_iff]
    constructor
    · rintro ⟨⟨h1, h2⟩, h3⟩
      refine ⟨h1, fun m2 hm2 => ?_⟩
      rcases List.mem_cons.1 hm2 with rfl | hmem
      · exact h2
      · exact h3 m2 hmem
    · rintro ⟨h1, h2⟩
      exact ⟨⟨h1, h2 m (List.mem_cons_self m rest)⟩,
        fun m2 hm2 => h2 m2 (List.mem_cons_of_mem m hm2)⟩

lemma plainMinLoop_lt_iff (f : Nat → α) :
    ∀ (ms : List Nat) (acc c : α),
      plainMinLoop f ms acc < c ↔ acc < c ∨ ∃ m ∈ ms, f m < c := by
  intro ms
  induction ms with
  | nil =>
    intro acc c
    rw [plainMinLoop]
    simp
  | cons m rest ih =>
    intro acc c
    rw [plainMinLoop, ih, min_lt_iff]
    constructor
    · rintro ((h1 | h2) | ⟨m2, hm2, h3⟩)
      · exact Or.inl h1
      · exact Or.inr ⟨m, List.mem_cons_self m rest, h2⟩
      · exact Or.inr ⟨m2, List.mem_cons_of_mem m hm2, h3⟩
    · rintro (h1 | ⟨m2, hm2, h3⟩)
      · exact Or.inl (Or.inl h1)
      · rcases List.mem_cons.1 hm2 with rfl | hmem
        · exact Or.inl (Or.inr h3)
        · exact Or.inr ⟨m2, hmem, h3⟩

end LtIffLemmas
